import Mathlib

set_option maxRecDepth 10000

/-!
Verification of the Connect-Tac-Toe game engine (`src/model.py`).

The embedding models the 6×7 grid as a function `Fin 6 → Fin 7 → Option Player`,
the two win-condition variants (`TicTacToeWinCondition`, `NotConnectFourWinCondition`),
the three physics variants (`FloatingTokenPhysics`, `StrongGravityTokenPhysics`,
`WeakGravityTokenPhysics`), and the engine `ConnectTacToeModel` with its
`choose_cell` / `step_physics` / `_finish_turn` operations.  Python's in-place
list mutation is rendered as explicit state passing; the BFS while-loop of
`NotConnectFourWinCondition._bfs_count` is rendered with explicit fuel (the
loop provably terminates within the fuel bound on a 6×7 grid).
-/

/-- The `Player` enumeration from `common_types.py`. -/
inductive Player : Type
  | P1 : Player
  | P2 : Player
deriving DecidableEq, Repr, Fintype

/-- A grid cell: empty (`none`) or owned by a player. -/
abbrev Cell := Option Player

/-- The 6×7 grid, row-major: `g r c` is the cell at row `r`, column `c`. -/
abbrev Grid := Fin 6 → Fin 7 → Cell

/-- A grid position `(row, col)`. -/
abbrev Pos := Fin 6 × Fin 7

/-- Write one cell of the grid (Python `grid[r][c] = v`). -/
def setCell (g : Grid) (r : Fin 6) (c : Fin 7) (v : Cell) : Grid :=
  fun r' c' => if r' = r ∧ c' = c then v else g r' c'

/-- `TicTacToeWinCondition._check_player_wins`: a player wins by occupying a
full row (all 7 cells) or a full column (all 6 cells). -/
def TicTacToeWinCondition.check_player_wins (g : Grid) (p : Player) : Bool :=
  ((List.finRange 6).any fun r =>
    ((List.finRange 7).countP fun c => decide (g r c = some p)) == 7) ||
  ((List.finRange 7).any fun c =>
    ((List.finRange 6).countP fun r => decide (g r c = some p)) == 6)

/-- The four cardinal directions of `NotConnectFourWinCondition._bfs_count`:
up, down, left, right (no diagonals). -/
def directions : List (Int × Int) := [(-1, 0), (1, 0), (0, -1), (0, 1)]

/-- Bounds-checked conversion of integer coordinates to a grid position
(the `0 <= new_row < rows and 0 <= new_col < cols` check of the BFS). -/
def toPos (r c : Int) : Option Pos :=
  if h : 0 ≤ r ∧ r < 6 ∧ 0 ≤ c ∧ c < 7 then
    some (⟨r.toNat, by omega⟩, ⟨c.toNat, by omega⟩)
  else none

/-- One direction's handling inside `_bfs_count`'s neighbor loop: if the
neighbor is in bounds, unvisited and owned by `p`, mark it visited and append
it to the queue. -/
def visit_dir (g : Grid) (p : Player) (pos : Pos) (st : List Pos × Finset Pos)
    (d : Int × Int) : List Pos × Finset Pos :=
  match toPos ((pos.1 : Int) + d.1) ((pos.2 : Int) + d.2) with
  | some np =>
      if np ∉ st.2 ∧ g np.1 np.2 = some p then (st.1 ++ [np], insert np st.2) else st
  | none => st

/-- One popped node's neighbor processing in `_bfs_count`: handle the four
directions in order. -/
def visit_neighbors (g : Grid) (p : Player) (pos : Pos) (st : List Pos × Finset Pos) :
    List Pos × Finset Pos :=
  directions.foldl (visit_dir g p pos) st

/-- The `while queue:` loop of `_bfs_count`, with explicit fuel.  Each
iteration pops the queue head, counts it, and visits its neighbors. -/
def bfs_loop (g : Grid) (p : Player) : Nat → List Pos → Finset Pos → Nat → Finset Pos × Nat
  | _, [], visited, count => (visited, count)
  | 0, _ :: _, visited, count => (visited, count)
  | fuel + 1, pos :: rest, visited, count =>
      let st := visit_neighbors g p pos (rest, visited)
      bfs_loop g p fuel st.1 st.2 (count + 1)

/-- `NotConnectFourWinCondition._bfs_count`: BFS from `start` (marked visited
on entry), returning the updated visited set and the component size counted.
Fuel 100 exceeds the loop's worst-case iteration count on a 6×7 grid. -/
def bfs_count (g : Grid) (p : Player) (start : Pos) (visited : Finset Pos) :
    Finset Pos × Nat :=
  bfs_loop g p 100 [start] (insert start visited) 0

/-- All grid positions in the row-major order of the seed scan of
`_check_player_wins` (`for start_row ... for start_col ...`). -/
def all_positions : List Pos :=
  (List.finRange 6).foldr (fun r acc => ((List.finRange 7).map fun c => (r, c)) ++ acc) []

/-- One candidate seed's handling in the scan of `_check_player_wins`: once a
winning group has been found the scan is over (early `return True`); an
unvisited cell owned by `p` seeds a BFS whose component size is tested
against 4. -/
def ncf_seed_step (g : Grid) (p : Player) (st : Bool × Finset Pos) (pos : Pos) :
    Bool × Finset Pos :=
  if st.1 then st
  else if g pos.1 pos.2 = some p ∧ pos ∉ st.2 then
    let r := bfs_count g p pos st.2
    (decide (4 ≤ r.2), r.1)
  else st

/-- `NotConnectFourWinCondition._check_player_wins`: scan all cells row-major;
each unvisited cell owned by `p` seeds a BFS, and the player wins as soon as a
component of size ≥ 4 is found (early return). -/
def NotConnectFourWinCondition.check_player_wins (g : Grid) (p : Player) : Bool :=
  (all_positions.foldl (ncf_seed_step g p) (false, (∅ : Finset Pos))).1

/-- The win-condition variant selected at construction (`tester.make`). -/
inductive WinKind : Type
  | tic_tac_toe : WinKind
  | not_connect_four : WinKind
deriving DecidableEq, Repr

/-- `check_both_winners` of the selected win condition: `(P1_wins, P2_wins)`. -/
def check_both_winners (w : WinKind) (g : Grid) : Bool × Bool :=
  match w with
  | .tic_tac_toe =>
      (TicTacToeWinCondition.check_player_wins g .P1,
       TicTacToeWinCondition.check_player_wins g .P2)
  | .not_connect_four =>
      (NotConnectFourWinCondition.check_player_wins g .P1,
       NotConnectFourWinCondition.check_player_wins g .P2)

/-- The physics variant selected at construction (`tester.make`). -/
inductive PhysicsKind : Type
  | floating : PhysicsKind
  | strong_gravity : PhysicsKind
  | weak_gravity : PhysicsKind
deriving DecidableEq, Repr

/-- A physics instance: its variant plus the `_animating` flag owned by the
gravity variants (`FloatingTokenPhysics` has no flag; its `is_animating`
is constantly false, so the field is simply ignored for it). -/
structure Physics : Type where
  kind : PhysicsKind
  animating : Bool
deriving DecidableEq, Repr

/-- `StrongGravityTokenPhysics.apply_physics`'s `can_fall` scan (columns
outer, rows inner): some occupied cell has an empty cell directly below. -/
def strong_can_fall (g : Grid) : Bool :=
  (List.finRange 7).any fun c => (List.finRange 5).any fun r =>
    (g r.castSucc c).isSome && (g r.succ c).isNone

/-- `WeakGravityTokenPhysics.apply_physics`'s `can_fall` scan (rows outer,
columns inner): some occupied cell has an empty cell directly below. -/
def weak_can_fall (g : Grid) : Bool :=
  (List.finRange 5).any fun r => (List.finRange 7).any fun c =>
    (g r.castSucc c).isSome && (g r.succ c).isNone

/-- `apply_physics` of the selected variant: sets the animating flag when some
token can fall; never mutates the grid. -/
def apply_physics (ph : Physics) (g : Grid) : Physics :=
  match ph.kind with
  | .floating => ph
  | .strong_gravity => if strong_can_fall g then { ph with animating := true } else ph
  | .weak_gravity => if weak_can_fall g then { ph with animating := true } else ph

/-- `is_animating` of the selected variant: constantly false for
`FloatingTokenPhysics`, the `_animating` flag for the gravity variants. -/
def Physics.is_animating (ph : Physics) : Bool :=
  match ph.kind with
  | .floating => false
  | .strong_gravity => ph.animating
  | .weak_gravity => ph.animating

/-- One cell of the pass of `StrongGravityTokenPhysics.step_animation`: a
token with an empty cell directly below it moves one row down, in place, and
the `moved` flag is raised. -/
def strong_step_cell (r : Fin 5) (gm : Grid × Bool) (c : Fin 7) : Grid × Bool :=
  if (gm.1 r.castSucc c).isSome && (gm.1 r.succ c).isNone then
    (setCell (setCell gm.1 r.succ c (gm.1 r.castSucc c)) r.castSucc c none, true)
  else gm

/-- One row of the pass of `StrongGravityTokenPhysics.step_animation`:
columns left to right. -/
def strong_step_row (gm : Grid × Bool) (r : Fin 5) : Grid × Bool :=
  (List.finRange 7).foldl (strong_step_cell r) gm

/-- The full pass of `StrongGravityTokenPhysics.step_animation`: rows from
`rows-2` down to `0`. -/
def strong_step (g : Grid) : Grid × Bool :=
  ((List.finRange 5).reverse).foldl strong_step_row (g, false)

/-- The `fixed_tokens` computation of `WeakGravityTokenPhysics.step_animation`
for one column: scanning from the bottom row upward, an occupied cell is fixed
iff it is in the bottom row or the cell directly below it is fixed. -/
def weak_fixed_step (g : Grid) (c : Fin 7) (fx : Finset (Fin 6)) (r : Fin 6) :
    Finset (Fin 6) :=
  if (g r c).isSome then
    if h : r.val = 5 then insert r fx
    else if (⟨r.val + 1, by have := r.isLt; omega⟩ : Fin 6) ∈ fx then insert r fx
    else fx
  else fx

/-- The full `fixed_tokens` scan for one column, bottom row upward. -/
def weak_fixed (g : Grid) (c : Fin 7) : Finset (Fin 6) :=
  ((List.finRange 6).reverse).foldl (weak_fixed_step g c) ∅

/-- One column's contribution to the `moves` list of
`WeakGravityTokenPhysics.step_animation`: for each non-bottom row (top to
bottom), an occupied non-fixed cell moves down one row; entries are
`(from, to)` positions. -/
def weak_col_moves (g : Grid) (c : Fin 7) : List (Pos × Pos) :=
  let fx := weak_fixed g c
  (List.finRange 5).filterMap fun r =>
    if (g r.castSucc c).isSome && decide (r.castSucc ∉ fx) then
      some ((r.castSucc, c), (r.succ, c))
    else none

/-- The full `moves` list, columns left to right. -/
def weak_moves (g : Grid) : List (Pos × Pos) :=
  (List.finRange 7).foldl (fun moves c => moves ++ weak_col_moves g c) []

/-- Writing one move of `WeakGravityTokenPhysics.step_animation`'s snapshot
update: the destination cell receives the owner read from the old grid. -/
def place_move (g : Grid) (ng : Grid) (m : Pos × Pos) : Grid :=
  setCell ng m.2.1 m.2.2 (g m.1.1 m.1.2)

/-- The snapshot's `new_grid` before the moving tokens are written: every
non-moving token kept at its place, every other cell empty. -/
def keep_grid (g : Grid) (moves : List (Pos × Pos)) : Grid := fun r c =>
  if (g r c).isSome && !(moves.any fun m => decide (m.1 = (r, c))) then g r c else none

/-- The full snapshot update: write each moving token at its destination on
top of the kept tokens. -/
def weak_apply_moves (g : Grid) (moves : List (Pos × Pos)) : Grid :=
  moves.foldl (place_move g) (keep_grid g moves)

/-- The grid effect of `WeakGravityTokenPhysics.step_animation`: apply the
snapshot update when there is at least one move, else leave the grid alone. -/
def weak_step_grid (g : Grid) : Grid :=
  let moves := weak_moves g
  if moves.isEmpty then g else weak_apply_moves g moves

/-- `step_animation` of the selected variant: Floating is a no-op; Strong
runs one bottom-to-top pass and clears the flag iff nothing moved; Weak
applies one simultaneous one-row step and always clears the flag. -/
def step_animation (ph : Physics) (g : Grid) : Physics × Grid :=
  match ph.kind with
  | .floating => (ph, g)
  | .strong_gravity =>
      let sg := strong_step g
      (if sg.2 then ph else { ph with animating := false }, sg.1)
  | .weak_gravity => ({ ph with animating := false }, weak_step_grid g)

/-- The `ConnectTacToeModel` state: grid, turn state, result flags, and the
injected win-condition and physics variants. -/
structure Model : Type where
  current_player : Player
  winner : Option Player
  is_game_done : Bool
  grid : Grid
  win_condition : WinKind
  token_physics : Physics
  pending_turn_end : Bool
  both_players_won : Bool

/-- `ConnectTacToeModel.__init__`: empty 6×7 grid, P1 to move, no winner,
game not done, physics flag down. -/
def Model.init (w : WinKind) (k : PhysicsKind) : Model :=
  { current_player := .P1
    winner := none
    is_game_done := false
    grid := fun _ _ => none
    win_condition := w
    token_physics := { kind := k, animating := false }
    pending_turn_end := false
    both_players_won := false }

/-- The model's `is_animating` property: delegates to the physics variant. -/
def Model.is_animating (m : Model) : Bool :=
  m.token_physics.is_animating

/-- `ConnectTacToeModel.is_grid_full`: every cell of the 6×7 grid occupied. -/
def is_grid_full (g : Grid) : Bool :=
  (List.finRange 6).all fun r => (List.finRange 7).all fun c => (g r c).isSome

/-- `ConnectTacToeModel._finish_turn`: clear the pending flag, evaluate both
players' win status, and resolve: both won / single winner / draw on a full
grid / otherwise alternate the current player. -/
def finish_turn (m : Model) : Model :=
  let m := { m with pending_turn_end := false }
  let w := check_both_winners m.win_condition m.grid
  if w.1 && w.2 then
    { m with both_players_won := true, is_game_done := true, winner := none }
  else if w.1 then { m with winner := some .P1, is_game_done := true }
  else if w.2 then { m with winner := some .P2, is_game_done := true }
  else if is_grid_full m.grid then { m with is_game_done := true }
  else { m with current_player := if m.current_player = .P1 then .P2 else .P1 }

/-- `ConnectTacToeModel.step_physics`: when animating, advance one animation
step; when the animation just finished and a turn end is pending, resolve
the turn. -/
def step_physics (m : Model) : Model :=
  if m.token_physics.is_animating then
    let sg := step_animation m.token_physics m.grid
    let m' : Model := { m with token_physics := sg.1, grid := sg.2 }
    if !m'.token_physics.is_animating && m'.pending_turn_end then finish_turn m' else m'
  else m

/-- `ConnectTacToeModel._is_valid_coordinate`: `0 <= row < 6` and
`0 <= col < 7` (Python ints, so the embedding takes `Int`). -/
def is_valid_coordinate (row col : Int) : Bool :=
  decide (0 ≤ row ∧ row < 6 ∧ 0 ≤ col ∧ col < 7)

/-- `ConnectTacToeModel.choose_cell`: reject when the game is done, an
animation is running, the coordinates are out of bounds, or the cell is
occupied; otherwise place the current player's token, run `apply_physics`,
and either defer the turn end (animation started) or resolve it at once. -/
def choose_cell (m : Model) (row col : Int) : Bool × Model :=
  if m.is_game_done then (false, m)
  else if m.is_animating then (false, m)
  else if h : is_valid_coordinate row col then
    have hb : 0 ≤ row ∧ row < 6 ∧ 0 ≤ col ∧ col < 7 := of_decide_eq_true h
    let r : Fin 6 := ⟨row.toNat, by omega⟩
    let c : Fin 7 := ⟨col.toNat, by omega⟩
    if (m.grid r c).isSome then (false, m)
    else
      let g := setCell m.grid r c (some m.current_player)
      let ph := apply_physics m.token_physics g
      let m' : Model := { m with grid := g, token_physics := ph }
      if m'.token_physics.is_animating then
        (true, { m' with pending_turn_end := true })
      else (true, finish_turn m')
  else (false, m)

/-- `ConnectTacToeModel.get_owner`: the owner of one cell. -/
def get_owner (m : Model) (r : Fin 6) (c : Fin 7) : Cell :=
  m.grid r c

/-- The engine states reachable from a freshly constructed model by any
sequence of `choose_cell` and `step_physics` calls. -/
inductive Reachable : Model → Prop
  | init (w : WinKind) (k : PhysicsKind) : Reachable (Model.init w k)
  | choose (m : Model) (row col : Int) : Reachable m → Reachable (choose_cell m row col).2
  | step (m : Model) : Reachable m → Reachable (step_physics m)

/-- Number of cells owned by player `p`. -/
def player_count (g : Grid) (p : Player) : Nat :=
  ((Finset.univ : Finset Pos).filter fun q => g q.1 q.2 = some p).card

/-- Number of occupied cells. -/
def occupied_count (g : Grid) : Nat :=
  ((Finset.univ : Finset Pos).filter fun q => (g q.1 q.2).isSome).card

/-- The opposite player (used to state conservation properties). -/
def Player.other : Player → Player
  | .P1 => .P2
  | .P2 => .P1

/-- A grid is settled when no token has an empty cell directly below it
(the fall rule shared by both gravity variants). -/
def settledP (g : Grid) : Prop :=
  ∀ (r : Fin 5) (c : Fin 7), (g r.castSucc c).isSome = true → (g r.succ c).isSome = true

instance : DecidablePred settledP := fun _ =>
  inferInstanceAs (Decidable (∀ _ _, _))

/-- The owners of one column's tokens, read top to bottom. -/
def col_owners (g : Grid) (c : Fin 7) : List Player :=
  (List.finRange 6).filterMap fun r => g r c

/-- Number of tokens in one column. -/
def col_count (g : Grid) (c : Fin 7) : Nat :=
  ((Finset.univ : Finset (Fin 6)).filter fun r => (g r c).isSome).card

/-- `finish_turn` never touches the grid. -/
theorem finish_turn_grid (m : Model) : (finish_turn m).grid = m.grid := by
  unfold finish_turn
  dsimp only
  split_ifs <;> rfl

/-- `finish_turn` never touches the physics instance. -/
theorem finish_turn_physics (m : Model) :
    (finish_turn m).token_physics = m.token_physics := by
  unfold finish_turn
  dsimp only
  split_ifs <;> rfl

/-- `finish_turn` never touches the injected win condition. -/
theorem finish_turn_win_condition (m : Model) :
    (finish_turn m).win_condition = m.win_condition := by
  unfold finish_turn
  dsimp only
  split_ifs <;> rfl

/-- `finish_turn` always clears the pending flag. -/
theorem finish_turn_pending (m : Model) :
    (finish_turn m).pending_turn_end = false := by
  unfold finish_turn
  dsimp only
  split_ifs <;> rfl

/-- C1: turn resolution in `_finish_turn` follows the exact precedence:
both players winning beats a single winner, a single winner beats a draw,
a full-grid draw beats alternation, and otherwise the current player toggles
exactly once.  The hypotheses record the state of a model on which
`_finish_turn` is invoked (no winner recorded yet, both-won flag down, game
not yet over). -/
theorem finish_turn_resolution (m : Model)
    (hw : m.winner = none) (hb : m.both_players_won = false)
    (hd : m.is_game_done = false) :
    (((check_both_winners m.win_condition m.grid).1 = true ∧
      (check_both_winners m.win_condition m.grid).2 = true) →
      (finish_turn m).both_players_won = true ∧ (finish_turn m).winner = none ∧
      (finish_turn m).is_game_done = true) ∧
    (((check_both_winners m.win_condition m.grid).1 = true ∧
      (check_both_winners m.win_condition m.grid).2 = false) →
      (finish_turn m).winner = some .P1 ∧ (finish_turn m).is_game_done = true ∧
      (finish_turn m).both_players_won = false) ∧
    (((check_both_winners m.win_condition m.grid).1 = false ∧
      (check_both_winners m.win_condition m.grid).2 = true) →
      (finish_turn m).winner = some .P2 ∧ (finish_turn m).is_game_done = true ∧
      (finish_turn m).both_players_won = false) ∧
    (((check_both_winners m.win_condition m.grid).1 = false ∧
      (check_both_winners m.win_condition m.grid).2 = false ∧
      is_grid_full m.grid = true) →
      (finish_turn m).is_game_done = true ∧ (finish_turn m).winner = none ∧
      (finish_turn m).both_players_won = false) ∧
    (((check_both_winners m.win_condition m.grid).1 = false ∧
      (check_both_winners m.win_condition m.grid).2 = false ∧
      is_grid_full m.grid = false) →
      (finish_turn m).is_game_done = false ∧
      (m.current_player = .P1 → (finish_turn m).current_player = .P2) ∧
      (m.current_player = .P2 → (finish_turn m).current_player = .P1)) := by
  unfold finish_turn
  dsimp only
  refine ⟨?_, ?_, ?_, ?_, ?_⟩
  · rintro ⟨h1, h2⟩
    simp [h1, h2]
  · rintro ⟨h1, h2⟩
    simp [h1, h2, hw, hb]
  · rintro ⟨h1, h2⟩
    simp [h1, h2, hw, hb]
  · rintro ⟨h1, h2, h3⟩
    simp [h1, h2, h3, hw, hb]
  · rintro ⟨h1, h2, h3⟩
    refine ⟨by simp [h1, h2, h3, hd], ?_, ?_⟩ <;> intro hp <;>
      simp [h1, h2, h3, hp]

/-- Closed witness for `finish_turn_resolution`: on the freshly constructed
model (no wins, grid not full) the current player toggles from P1 to P2 and
the game does not end. -/
theorem finish_turn_resolution_witness :
    (Model.init .tic_tac_toe .floating).winner = none ∧
    (finish_turn (Model.init .tic_tac_toe .floating)).is_game_done = false ∧
    (finish_turn (Model.init .tic_tac_toe .floating)).current_player = Player.P2 := by
  have h := finish_turn_resolution (Model.init .tic_tac_toe .floating) rfl rfl rfl
  have h5 := h.2.2.2.2 ⟨by decide, by decide, by decide⟩
  exact ⟨rfl, h5.1, h5.2.1 rfl⟩

/-- C2: `choose_cell` fails (returns `False`) and leaves the whole engine
state unchanged when the game is over, when physics is animating, when the
coordinates are out of bounds, or when the target cell is occupied; in the
embedding it is a total function, so no exception can be raised.  Otherwise
it succeeds and the resulting grid (before any physics settling) is exactly
the old grid with the chosen cell set to the current player. -/
theorem choose_cell_spec (m : Model) (row col : Int) :
    (m.is_game_done = true → choose_cell m row col = (false, m)) ∧
    (m.is_animating = true → choose_cell m row col = (false, m)) ∧
    (is_valid_coordinate row col = false → choose_cell m row col = (false, m)) ∧
    (∀ (hr : 0 ≤ row ∧ row < 6) (hc : 0 ≤ col ∧ col < 7),
      (m.grid ⟨row.toNat, by omega⟩ ⟨col.toNat, by omega⟩).isSome = true →
      choose_cell m row col = (false, m)) ∧
    (m.is_game_done = false → m.is_animating = false →
      ∀ (hr : 0 ≤ row ∧ row < 6) (hc : 0 ≤ col ∧ col < 7),
      m.grid ⟨row.toNat, by omega⟩ ⟨col.toNat, by omega⟩ = none →
      (choose_cell m row col).1 = true ∧
      (choose_cell m row col).2.grid =
        setCell m.grid ⟨row.toNat, by omega⟩ ⟨col.toNat, by omega⟩
          (some m.current_player)) := by
  refine ⟨?_, ?_, ?_, ?_, ?_⟩
  · intro h
    simp [choose_cell, h]
  · intro h
    by_cases hd : m.is_game_done <;> simp [choose_cell, hd, h]
  · intro h
    by_cases hd : m.is_game_done
    · simp [choose_cell, hd]
    · by_cases ha : m.is_animating <;> simp [choose_cell, hd, ha, h]
  · intro hr hc hocc
    by_cases hd : m.is_game_done
    · simp [choose_cell, hd]
    · by_cases ha : m.is_animating
      · simp [choose_cell, hd, ha]
      · have hv : is_valid_coordinate row col = true := by
          simp [is_valid_coordinate]; omega
        simp [choose_cell, hd, ha, hv, hocc]
  · intro hd ha hr hc hemp
    have hv : is_valid_coordinate row col = true := by
      simp [is_valid_coordinate]; omega
    simp [choose_cell, hd, ha, hv, hemp]
    constructor
    · split <;> simp
    · split
      · simp
      · simp [finish_turn_grid]

/-- Closed witness for `choose_cell_spec`: on the fresh model, placing at
`(0,0)` succeeds and the grid gains exactly that cell, owned by P1. -/
theorem choose_cell_spec_witness :
    (choose_cell (Model.init .tic_tac_toe .floating) 0 0).1 = true ∧
    (choose_cell (Model.init .tic_tac_toe .floating) 0 0).2.grid =
      setCell (Model.init .tic_tac_toe .floating).grid ⟨0, by decide⟩ ⟨0, by decide⟩
        (some Player.P1) := by
  have h := choose_cell_spec (Model.init .tic_tac_toe .floating) 0 0
  have hs := h.2.2.2.2 rfl rfl ⟨by decide, by decide⟩ ⟨by decide, by decide⟩ rfl
  exact ⟨hs.1, hs.2⟩

/-- Folding a function that fixes `a` leaves `a` unchanged. -/
theorem foldl_id_of_fix {α β : Type} (f : α → β → α) (a : α) (h : ∀ x, f a x = a) :
    ∀ l : List β, l.foldl f a = a := by
  intro l
  induction l with
  | nil => rfl
  | cons x xs ih => rw [List.foldl_cons, h x, ih]

/-- Folding preserves an invariant preserved by each step. -/
theorem foldl_preserves {α β : Type} (P : α → Prop) (f : α → β → α)
    (h : ∀ a x, P a → P (f a x)) : ∀ (l : List β) (a : α), P a → P (l.foldl f a) := by
  intro l
  induction l with
  | nil => intro a ha; exact ha
  | cons x xs ih => intro a ha; exact ih _ (h a x ha)

/-- Exchanging one summand: if `F'` agrees with `F` away from `a`, the total
sums differ exactly by the values at `a`. -/
theorem sum_update_pos (F F' : Pos → Nat) (a : Pos) (h : ∀ q, q ≠ a → F' q = F q) :
    (∑ q : Pos, F' q) + F a = (∑ q : Pos, F q) + F' a := by
  have h1 : ∑ q : Pos, F' q = F' a + ∑ q ∈ Finset.univ.erase a, F' q :=
    (Finset.add_sum_erase _ _ (Finset.mem_univ a)).symm
  have h2 : ∑ q : Pos, F q = F a + ∑ q ∈ Finset.univ.erase a, F q :=
    (Finset.add_sum_erase _ _ (Finset.mem_univ a)).symm
  have h3 : ∑ q ∈ Finset.univ.erase a, F' q = ∑ q ∈ Finset.univ.erase a, F q :=
    Finset.sum_congr rfl fun q hq => h q (Finset.ne_of_mem_erase hq)
  omega

/-- The weight of one cell for the gravity-termination measure: an occupied
cell at row `r` weighs `5 - r`. -/
def potCell (cell : Cell) (r : Fin 6) : Nat :=
  if cell.isSome then 5 - (r : Nat) else 0

/-- Termination measure for strong gravity: total height of all tokens above
the bottom row.  Every actual move strictly decreases it. -/
def pot (g : Grid) : Nat := ∑ q : Pos, potCell (g q.1 q.2) q.1

theorem pot_setCell (g : Grid) (r : Fin 6) (c : Fin 7) (v : Cell) :
    pot (setCell g r c v) + potCell (g r c) r = pot g + potCell v r := by
  have := sum_update_pos (fun q => potCell (g q.1 q.2) q.1)
    (fun q => potCell (setCell g r c v q.1 q.2) q.1) (r, c) ?_
  · simpa [pot, setCell] using this
  · intro q hq
    simp only [setCell]
    rw [if_neg]
    rintro ⟨h1, h2⟩
    exact hq (Prod.ext h1 h2)

theorem pot_move (g : Grid) (r : Fin 5) (c : Fin 7)
    (hocc : (g r.castSucc c).isSome = true) (hemp : g r.succ c = none) :
    pot (setCell (setCell g r.succ c (g r.castSucc c)) r.castSucc c none) + 1 = pot g := by
  have hne : (r.succ : Fin 6) ≠ r.castSucc := by
    intro h
    have := congrArg Fin.val h
    simp [Fin.val_succ, Fin.coe_castSucc] at this
  have h1 := pot_setCell g r.succ c (g r.castSucc c)
  have h2 := pot_setCell (setCell g r.succ c (g r.castSucc c)) r.castSucc c none
  have hkeep : setCell g r.succ c (g r.castSucc c) r.castSucc c = g r.castSucc c := by
    simp [setCell, hne]
  rw [hkeep] at h2
  have hv : (r.castSucc : Fin 6).val = r.val := rfl
  have hv2 : (r.succ : Fin 6).val = r.val + 1 := rfl
  have hr5 : r.val < 5 := r.isLt
  simp only [potCell, hemp, hocc, Option.isSome_none, Option.isSome_some, if_true,
    if_false, Bool.false_eq_true, hv, hv2] at h1 h2
  omega

theorem strong_step_cell_snd (r : Fin 5) (gm : Grid × Bool) (c : Fin 7)
    (h : gm.2 = true) : (strong_step_cell r gm c).2 = true := by
  unfold strong_step_cell
  split
  · rfl
  · exact h

theorem strong_cells_nomove (r : Fin 5) :
    ∀ (cs : List (Fin 7)) (gm : Grid × Bool),
      (cs.foldl (strong_step_cell r) gm).2 = false →
      cs.foldl (strong_step_cell r) gm = gm ∧
      ∀ c ∈ cs, ((gm.1 r.castSucc c).isSome && (gm.1 r.succ c).isNone) = false := by
  intro cs
  induction cs with
  | nil => intro gm _; exact ⟨rfl, by simp⟩
  | cons c cs ih =>
      intro gm hsnd
      rw [List.foldl_cons] at hsnd
      by_cases hfire : ((gm.1 r.castSucc c).isSome && (gm.1 r.succ c).isNone) = true
      · exfalso
        have h1 : (strong_step_cell r gm c).2 = true := by
          unfold strong_step_cell
          rw [if_pos hfire]
        have := foldl_preserves (fun gm => gm.2 = true) (strong_step_cell r)
          (fun a x ha => strong_step_cell_snd r a x ha) cs _ h1
        rw [this] at hsnd
        exact absurd hsnd (by simp)
      · have hid : strong_step_cell r gm c = gm := by
          unfold strong_step_cell
          rw [if_neg hfire]
        rw [List.foldl_cons, hid]
        obtain ⟨he, hall⟩ := ih gm (by rwa [hid] at hsnd)
        refine ⟨he, ?_⟩
        intro c' hc'
        rcases List.mem_cons.mp hc' with h | h
        · subst h
          exact Bool.not_eq_true _ ▸ (Bool.eq_false_iff.mpr hfire)
        · exact hall c' h

theorem strong_step_row_snd (gm : Grid × Bool) (r : Fin 5) (h : gm.2 = true) :
    (strong_step_row gm r).2 = true :=
  foldl_preserves (fun gm => gm.2 = true) (strong_step_cell r)
    (fun a x ha => strong_step_cell_snd r a x ha) _ gm h

theorem strong_rows_nomove :
    ∀ (rs : List (Fin 5)) (gm : Grid × Bool),
      (rs.foldl strong_step_row gm).2 = false →
      rs.foldl strong_step_row gm = gm ∧
      ∀ r ∈ rs, ∀ c, ((gm.1 r.castSucc c).isSome && (gm.1 r.succ c).isNone) = false := by
  intro rs
  induction rs with
  | nil => intro gm _; exact ⟨rfl, by simp⟩
  | cons r rs ih =>
      intro gm hsnd
      rw [List.foldl_cons] at hsnd
      by_cases hrow : (strong_step_row gm r).2 = true
      · exfalso
        have := foldl_preserves (fun gm => gm.2 = true) strong_step_row
          (fun a x ha => strong_step_row_snd a x ha) rs _ hrow
        rw [this] at hsnd
        exact absurd hsnd (by simp)
      · have hrow' : (strong_step_row gm r).2 = false := Bool.eq_false_iff.mpr hrow
        obtain ⟨he1, hall1⟩ := strong_cells_nomove r (List.finRange 7) gm hrow'
        have hid : strong_step_row gm r = gm := he1
        rw [hid] at hsnd
        rw [List.foldl_cons, hid]
        obtain ⟨he, hall⟩ := ih gm hsnd
        refine ⟨he, ?_⟩
        intro r' hr' c
        rcases List.mem_cons.mp hr' with h | h
        · subst h
          exact hall1 c (List.mem_finRange c)
        · exact hall r' h c

/-- A settled grid yields a pass that moves nothing and leaves the grid as is. -/
theorem strong_step_settled (g : Grid) (h : settledP g) : strong_step g = (g, false) := by
  unfold strong_step
  refine foldl_id_of_fix _ _ ?_ _
  intro r
  unfold strong_step_row
  refine foldl_id_of_fix _ _ ?_ _
  intro c
  unfold strong_step_cell
  rw [if_neg]
  intro hfire
  rw [Bool.and_eq_true, Option.isNone_iff_eq_none] at hfire
  have hs := h r c hfire.1
  have h2 : g r.succ c = none := hfire.2
  rw [h2] at hs
  simp at hs

/-- A pass that moves nothing happens only on a settled grid, and is then the
identity. -/
theorem strong_step_nomove (g : Grid) (h : (strong_step g).2 = false) :
    strong_step g = (g, false) ∧ settledP g := by
  obtain ⟨he, hall⟩ := strong_rows_nomove ((List.finRange 5).reverse) (g, false) h
  refine ⟨by rw [strong_step, he], ?_⟩
  intro r c hocc
  have hb := hall r (by simp [List.mem_reverse, List.mem_finRange]) c
  simp only [hocc, Bool.true_and] at hb
  cases hx : g r.succ c with
  | none => rw [hx] at hb; simp at hb
  | some v => simp [hx]

theorem strong_step_cell_cases (r : Fin 5) (gm : Grid × Bool) (c : Fin 7) :
    strong_step_cell r gm c = gm ∨
    ((strong_step_cell r gm c).2 = true ∧ pot (strong_step_cell r gm c).1 + 1 = pot gm.1) := by
  unfold strong_step_cell
  split
  · right
    rename_i hfire
    rw [Bool.and_eq_true, Option.isNone_iff_eq_none] at hfire
    exact ⟨rfl, pot_move gm.1 r c hfire.1 hfire.2⟩
  · left
    rfl

/-- A pass that does move something strictly decreases the measure. -/
theorem strong_step_pot (g : Grid) :
    pot (strong_step g).1 ≤ pot g ∧
    ((strong_step g).2 = true → pot (strong_step g).1 < pot g) := by
  have hcell : ∀ (r : Fin 5) (gm : Grid × Bool) (c : Fin 7),
      (pot gm.1 ≤ pot g ∧ (gm.2 = true → pot gm.1 < pot g)) →
      (pot (strong_step_cell r gm c).1 ≤ pot g ∧
       ((strong_step_cell r gm c).2 = true → pot (strong_step_cell r gm c).1 < pot g)) := by
    rintro r gm c ⟨h1, h2⟩
    rcases strong_step_cell_cases r gm c with he | ⟨_, hlt⟩
    · rw [he]
      exact ⟨h1, h2⟩
    · exact ⟨by omega, fun _ => by omega⟩
  have hrow : ∀ (gm : Grid × Bool) (r : Fin 5),
      (pot gm.1 ≤ pot g ∧ (gm.2 = true → pot gm.1 < pot g)) →
      (pot (strong_step_row gm r).1 ≤ pot g ∧
       ((strong_step_row gm r).2 = true → pot (strong_step_row gm r).1 < pot g)) := by
    intro gm r hgm
    unfold strong_step_row
    have H := foldl_preserves
      (fun a : Grid × Bool => pot a.1 ≤ pot g ∧ (a.2 = true → pot a.1 < pot g))
      (strong_step_cell r) (fun a x ha => hcell r a x ha)
    exact H (List.finRange 7) gm hgm
  unfold strong_step
  have H := foldl_preserves
    (fun a : Grid × Bool => pot a.1 ≤ pot g ∧ (a.2 = true → pot a.1 < pot g))
    strong_step_row (fun a x ha => hrow a x ha)
  exact H ((List.finRange 5).reverse) (g, false) ⟨le_refl _, by simp⟩

/-- The grid component of one strong-gravity pass. -/
def strong_grid (g : Grid) : Grid := (strong_step g).1

/-- Repeated strong-gravity passes reach a settled grid. -/
theorem strong_drain_settled (g : Grid) : ∃ n, settledP (strong_grid^[n] g) := by
  have H : ∀ (k : Nat) (g : Grid), pot g ≤ k → ∃ n, settledP (strong_grid^[n] g) := by
    intro k
    induction k with
    | zero =>
        intro g hg
        by_cases hs : (strong_step g).2 = false
        · exact ⟨0, (strong_step_nomove g hs).2⟩
        · exfalso
          have := (strong_step_pot g).2 (Bool.not_eq_false _ ▸ (by simpa using hs))
          omega
    | succ k ih =>
        intro g hg
        by_cases hs : (strong_step g).2 = false
        · exact ⟨0, (strong_step_nomove g hs).2⟩
        · have hlt := (strong_step_pot g).2 (by simpa using hs)
          obtain ⟨n, hn⟩ := ih (strong_grid g) (by unfold strong_grid; omega)
          exact ⟨n + 1, by rwa [Function.iterate_succ_apply]⟩
  exact H (pot g) g (le_refl _)

/-- The owner list of a column, as a function of the column vector alone. -/
def colOwnersVec (v : Fin 6 → Cell) : List Player :=
  (List.finRange 6).filterMap v

/-- The column vector after one in-place downward move at rows `k`/`k+1`. -/
def vecSwap (v : Fin 6 → Cell) (k : Fin 5) : Fin 6 → Cell := fun r =>
  if r = k.castSucc then none else if r = k.succ then v k.castSucc else v r

set_option maxRecDepth 10000 in
theorem colOwnersVec_swap :
    ∀ (v : Fin 6 → Cell) (k : Fin 5), v k.succ = none →
      colOwnersVec (vecSwap v k) = colOwnersVec v := by decide

/-- Columns read identically on two grids have identical owner lists. -/
theorem col_owners_congr (g g' : Grid) (c : Fin 7) (h : ∀ r, g' r c = g r c) :
    col_owners g' c = col_owners g c := by
  unfold col_owners
  exact List.filterMap_congr fun r _ => h r

/-- One in-place downward move leaves every column's owner list unchanged. -/
theorem col_owners_move (g : Grid) (r : Fin 5) (c : Fin 7)
    (hemp : g r.succ c = none) :
    ∀ c', col_owners
      (setCell (setCell g r.succ c (g r.castSucc c)) r.castSucc c none) c' =
      col_owners g c' := by
  intro c'
  by_cases hc : c' = c
  · subst hc
    show colOwnersVec
      (fun r' => setCell (setCell g r.succ c' (g r.castSucc c')) r.castSucc c' none r' c') =
      colOwnersVec (fun r' => g r' c')
    have hv : (fun r' =>
        setCell (setCell g r.succ c' (g r.castSucc c')) r.castSucc c' none r' c') =
        vecSwap (fun r' => g r' c') r := by
      funext r'
      simp [setCell, vecSwap]
    rw [hv]
    exact colOwnersVec_swap (fun r' => g r' c') r hemp
  · refine col_owners_congr _ _ _ ?_
    intro r'
    simp [setCell, hc]

/-- A strong-gravity pass never creates, destroys, recolors or reorders the
tokens of any column. -/
theorem strong_step_col_owners (g : Grid) :
    ∀ c, col_owners (strong_step g).1 c = col_owners g c := by
  have hcell : ∀ (r : Fin 5) (gm : Grid × Bool) (c : Fin 7),
      (∀ x, col_owners gm.1 x = col_owners g x) →
      (∀ x, col_owners (strong_step_cell r gm c).1 x = col_owners g x) := by
    intro r gm c hgm x
    unfold strong_step_cell
    split
    · rename_i hfire
      rw [Bool.and_eq_true, Option.isNone_iff_eq_none] at hfire
      simp only
      rw [col_owners_move gm.1 r c hfire.2 x]
      exact hgm x
    · exact hgm x
  have hrow : ∀ (gm : Grid × Bool) (r : Fin 5),
      (∀ x, col_owners gm.1 x = col_owners g x) →
      (∀ x, col_owners (strong_step_row gm r).1 x = col_owners g x) := by
    intro gm r hgm
    unfold strong_step_row
    have H := foldl_preserves
      (fun a : Grid × Bool => ∀ x, col_owners a.1 x = col_owners g x)
      (strong_step_cell r) (fun a x ha => hcell r a x ha)
    exact H (List.finRange 7) gm hgm
  unfold strong_step
  have H := foldl_preserves
    (fun a : Grid × Bool => ∀ x, col_owners a.1 x = col_owners g x)
    strong_step_row (fun a x ha => hrow a x ha)
  exact H ((List.finRange 5).reverse) (g, false) (fun _ => rfl)

set_option maxRecDepth 10000 in
/-- On a settled column the tokens occupy exactly the bottom rows: a cell is
occupied iff its row index is at least `6 - (number of tokens)`. -/
theorem vec_packed :
    ∀ v : Fin 6 → Cell,
      (∀ r : Fin 5, (v r.castSucc).isSome = true → (v r.succ).isSome = true) →
      ∀ r, (v r).isSome = true ↔ 6 - (colOwnersVec v).length ≤ r.val := by decide

/-- Column owner lists are preserved by any number of strong-gravity passes. -/
theorem strong_iter_col_owners (n : Nat) :
    ∀ (g : Grid) (c : Fin 7), col_owners (strong_grid^[n] g) c = col_owners g c := by
  induction n with
  | zero => intro g c; rfl
  | succ n ih =>
      intro g c
      rw [Function.iterate_succ_apply, ih (strong_grid g) c]
      exact strong_step_col_owners g c

/-- The strong-gravity flag after one `step_animation`: kept iff the pass
moved something, cleared otherwise. -/
theorem strong_step_flag (b : Bool) (g : Grid) :
    (step_animation ⟨.strong_gravity, b⟩ g).1.is_animating =
      ((strong_step g).2 && b) := by
  show (if (strong_step g).2 then (⟨.strong_gravity, b⟩ : Physics)
    else ⟨.strong_gravity, false⟩).is_animating = ((strong_step g).2 && b)
  cases h : (strong_step g).2 <;> simp [Physics.is_animating]

set_option maxRecDepth 40000 in
/-- C4: strong gravity (`StrongGravityTokenPhysics`).  First conjunct: the
concrete scenario — placing a single token at `(0,3)` on the fresh model and
stepping physics six times leaves the token at `(5,3)`, every other cell of
column 3 empty, and the animation over.  Second conjunct: from any grid,
repeated passes reach a settled grid whose columns hold exactly the original
tokens of that column, in order, packed into the bottom-most rows.  Third
conjunct: one pass clears the animating flag exactly when it moved nothing. -/
theorem strong_gravity_drain :
    (let m0 := Model.init .tic_tac_toe .strong_gravity
     let m1 := (choose_cell m0 0 3).2
     let m7 := step_physics (step_physics (step_physics (step_physics
       (step_physics (step_physics m1)))))
     (choose_cell m0 0 3).1 = true ∧ m1.is_animating = true ∧
     m7.is_animating = false ∧ m7.grid 5 3 = some Player.P1 ∧
     (∀ r : Fin 5, m7.grid r.castSucc 3 = none)) ∧
    (∀ g : Grid, ∃ n,
      settledP (strong_grid^[n] g) ∧
      (∀ c, col_owners (strong_grid^[n] g) c = col_owners g c) ∧
      (∀ (r : Fin 6) (c : Fin 7),
        ((strong_grid^[n] g) r c).isSome = true ↔
          6 - (col_owners g c).length ≤ r.val)) ∧
    (∀ (b : Bool) (g : Grid),
      (step_animation ⟨.strong_gravity, b⟩ g).1.is_animating =
        ((strong_step g).2 && b)) := by
  refine ⟨by decide, ?_, ?_⟩
  · intro g
    obtain ⟨n, hn⟩ := strong_drain_settled g
    refine ⟨n, hn, strong_iter_col_owners n g, ?_⟩
    intro r c
    have hvec := vec_packed (fun r' => (strong_grid^[n] g) r' c)
      (fun r' h => hn r' c h) r
    have hlen : (colOwnersVec fun r' => (strong_grid^[n] g) r' c) =
        col_owners g c := strong_iter_col_owners n g c
    rwa [hlen] at hvec
  · intro b g
    exact strong_step_flag b g

/-- The occupancy vector of one column. -/
def colOcc (g : Grid) (c : Fin 7) : Fin 6 → Bool := fun r => (g r c).isSome

/-- `weak_fixed_step` as a function of the occupancy vector alone. -/
def weak_fixed_vec_step (v : Fin 6 → Bool) (fx : Finset (Fin 6)) (r : Fin 6) :
    Finset (Fin 6) :=
  if v r then
    if h : r.val = 5 then insert r fx
    else if (⟨r.val + 1, by have := r.isLt; omega⟩ : Fin 6) ∈ fx then insert r fx
    else fx
  else fx

/-- `weak_fixed` as a function of the occupancy vector alone. -/
def weak_fixed_vec (v : Fin 6 → Bool) : Finset (Fin 6) :=
  ((List.finRange 6).reverse).foldl (weak_fixed_vec_step v) ∅

theorem weak_fixed_eq_vec (g : Grid) (c : Fin 7) :
    weak_fixed g c = weak_fixed_vec (colOcc g c) := rfl

theorem weak_fixed_vec_mem :
    ∀ (v : Fin 6 → Bool) (r : Fin 6),
      r ∈ weak_fixed_vec v ↔ ∀ r', r ≤ r' → v r' = true := by decide

/-- A cell is supported when it and every cell below it in its column are
occupied — the closed form of the `fixed_tokens` computation. -/
def supported (g : Grid) (y : Pos) : Prop :=
  ∀ r' : Fin 6, y.1 ≤ r' → (g r' y.2).isSome = true

instance : DecidablePred (fun y => supported g y) := fun _ =>
  inferInstanceAs (Decidable (∀ _, _))

/-- The `fixed_tokens` scan marks exactly the supported cells. -/
theorem weak_fixed_mem (g : Grid) (c : Fin 7) (r : Fin 6) :
    r ∈ weak_fixed g c ↔ supported g (r, c) := by
  rw [weak_fixed_eq_vec]
  exact weak_fixed_vec_mem (colOcc g c) r

theorem supported_of_occ_le (g : Grid) (y : Pos) (h : supported g y) :
    (g y.1 y.2).isSome = true :=
  h y.1 (le_refl _)

/-- Folding `acc ++ h c` over a list collects the per-element lists. -/
theorem foldl_append_eq {α β : Type} (h : β → List α) :
    ∀ (l : List β) (init : List α),
      l.foldl (fun acc c => acc ++ h c) init = init ++ (l.map h).flatten := by
  intro l
  induction l with
  | nil => intro init; simp
  | cons x xs ih => intro init; simp [ih]

theorem weak_moves_eq (g : Grid) :
    weak_moves g = ((List.finRange 7).map (weak_col_moves g)).flatten := by
  unfold weak_moves
  rw [foldl_append_eq (weak_col_moves g) (List.finRange 7) []]
  simp

theorem mem_weak_col_moves (g : Grid) (c : Fin 7) (x : Pos × Pos) :
    x ∈ weak_col_moves g c ↔
      ∃ r : Fin 5, x = ((r.castSucc, c), (r.succ, c)) ∧
        (g r.castSucc c).isSome = true ∧ ¬ supported g (r.castSucc, c) := by
  unfold weak_col_moves
  rw [List.mem_filterMap]
  constructor
  · rintro ⟨r, -, hr⟩
    split at hr
    · rename_i hcond
      rw [Bool.and_eq_true, decide_eq_true_iff] at hcond
      rw [weak_fixed_mem] at hcond
      cases hr
      exact ⟨r, rfl, hcond.1, hcond.2⟩
    · cases hr
  · rintro ⟨r, rfl, hocc, hnsup⟩
    refine ⟨r, List.mem_finRange r, ?_⟩
    rw [if_pos]
    rw [Bool.and_eq_true, decide_eq_true_iff, weak_fixed_mem]
    exact ⟨hocc, hnsup⟩

theorem mem_weak_moves (g : Grid) (x : Pos × Pos) :
    x ∈ weak_moves g ↔
      ∃ (c : Fin 7) (r : Fin 5), x = ((r.castSucc, c), (r.succ, c)) ∧
        (g r.castSucc c).isSome = true ∧ ¬ supported g (r.castSucc, c) := by
  rw [weak_moves_eq, List.mem_flatten]
  constructor
  · rintro ⟨l, hl, hx⟩
    rw [List.mem_map] at hl
    obtain ⟨c, -, rfl⟩ := hl
    obtain ⟨r, h1, h2, h3⟩ := (mem_weak_col_moves g c x).mp hx
    exact ⟨c, r, h1, h2, h3⟩
  · rintro ⟨c, r, h1, h2, h3⟩
    exact ⟨weak_col_moves g c, List.mem_map_of_mem _ (List.mem_finRange c),
      (mem_weak_col_moves g c x).mpr ⟨r, h1, h2, h3⟩⟩

theorem supported_def (g : Grid) (a : Fin 6) (c : Fin 7) :
    supported g (a, c) ↔ ∀ r' : Fin 6, a ≤ r' → (g r' c).isSome = true := Iff.rfl

theorem supported_step (g : Grid) (r : Fin 5) (c : Fin 7) :
    supported g (r.castSucc, c) ↔
      ((g r.castSucc c).isSome = true ∧ supported g (r.succ, c)) := by
  rw [supported_def, supported_def]
  have hsv : (r.succ : Fin 6).val = r.val + 1 := rfl
  have hcv : (r.castSucc : Fin 6).val = r.val := rfl
  constructor
  · intro h
    refine ⟨h r.castSucc (le_refl _), ?_⟩
    intro r' hr'
    refine h r' ?_
    rw [Fin.le_def] at hr' ⊢
    omega
  · rintro ⟨h1, h2⟩
    intro r' hr'
    rcases eq_or_lt_of_le hr' with he | hlt
    · rw [← he]
      exact h1
    · refine h2 r' ?_
      rw [Fin.lt_def] at hlt
      rw [Fin.le_def]
      omega

theorem supported_bottom (g : Grid) (y : Pos) (h5 : y.1.val = 5) :
    supported g y ↔ (g y.1 y.2).isSome = true := by
  constructor
  · exact supported_of_occ_le g y
  · intro hocc r' hr'
    have he : r' = y.1 := by
      apply Fin.ext
      rw [Fin.le_def] at hr'
      have := r'.isLt
      omega
    rw [he]
    exact hocc

/-- An occupied unsupported cell sits strictly above the bottom row. -/
theorem unsupported_lt (g : Grid) (y : Pos) (hocc : (g y.1 y.2).isSome = true)
    (hnsup : ¬ supported g y) : y.1.val < 5 := by
  rcases lt_or_ge y.1.val 5 with h | h
  · exact h
  · exfalso
    have h5 : y.1.val = 5 := by have := y.1.isLt; omega
    exact hnsup ((supported_bottom g y h5).mpr hocc)

/-- Applying a move list never touches a cell that is no move's destination. -/
theorem foldl_place_nodest (g : Grid) :
    ∀ (mv : List (Pos × Pos)) (b : Grid) (y : Pos), (∀ m ∈ mv, m.2 ≠ y) →
      (mv.foldl (place_move g) b) y.1 y.2 = b y.1 y.2 := by
  intro mv
  induction mv with
  | nil => intro b y _; rfl
  | cons m rest ih =>
      intro b y h
      rw [List.foldl_cons]
      rw [ih _ y fun m' hm' => h m' (List.mem_cons_of_mem m hm')]
      unfold place_move setCell
      rw [if_neg]
      rintro ⟨h1, h2⟩
      exact h m (List.mem_cons_self m rest) (Prod.ext h1 h2).symm

/-- Applying a move list writes `g`'s value at the (unique) source into each
destination cell. -/
theorem foldl_place_dest (g : Grid) :
    ∀ (mv : List (Pos × Pos)) (b : Grid) (y x : Pos),
      (∀ m ∈ mv, m.2 = y → m.1 = x) → (∃ m ∈ mv, m.2 = y) →
      (mv.foldl (place_move g) b) y.1 y.2 = g x.1 x.2 := by
  intro mv
  induction mv with
  | nil => rintro b y x _ ⟨m, hm, _⟩; cases hm
  | cons m rest ih =>
      intro b y x hx hin
      rw [List.foldl_cons]
      by_cases hrest : ∃ m' ∈ rest, m'.2 = y
      · exact ih _ y x (fun m' hm' => hx m' (List.mem_cons_of_mem m hm')) hrest
      · obtain ⟨m', hm', hy⟩ := hin
        rcases List.mem_cons.mp hm' with rfl | hmem
        · rw [foldl_place_nodest g rest _ y
            (fun m'' hm'' hcon => hrest ⟨m'', hm'', hcon⟩)]
          unfold place_move setCell
          rw [hy, if_pos ⟨rfl, rfl⟩, hx m' (List.mem_cons_self m' rest) hy]
        · exact absurd ⟨m', hmem, hy⟩ hrest

/-- The claim's description of one weak-gravity step, cell by cell: a
supported token stays; any other cell receives the token from directly above
when that token is falling, and is empty otherwise. -/
def weak_step_spec (g : Grid) (y : Pos) : Cell :=
  if supported g y then g y.1 y.2
  else if h : y.1.val ≠ 0 then
    if (g (⟨y.1.val - 1, by have := y.1.isLt; omega⟩ : Fin 6) y.2).isSome = true ∧
        ¬ supported g ((⟨y.1.val - 1, by have := y.1.isLt; omega⟩ : Fin 6), y.2) then
      g (⟨y.1.val - 1, by have := y.1.isLt; omega⟩ : Fin 6) y.2
    else none
  else none

/-- An occupied unsupported cell is the source of a move. -/
theorem move_of_unsupported (g : Grid) (y : Pos) (hocc : (g y.1 y.2).isSome = true)
    (hnsup : ¬ supported g y) :
    ((y.1, y.2), ((⟨y.1.val + 1,
      by have := unsupported_lt g y hocc hnsup; omega⟩ : Fin 6), y.2))
      ∈ weak_moves g := by
  have hlt : y.1.val < 5 := unsupported_lt g y hocc hnsup
  rw [mem_weak_moves]
  have h1 : (Fin.castSucc ⟨y.1.val, hlt⟩ : Fin 6) = y.1 := Fin.ext rfl
  have h2 : (Fin.succ ⟨y.1.val, hlt⟩ : Fin 6) = ⟨y.1.val + 1, by omega⟩ := Fin.ext rfl
  refine ⟨y.2, ⟨y.1.val, hlt⟩, ?_, ?_, ?_⟩
  · rw [h1, h2]
  · rw [h1]
    exact hocc
  · rw [h1]
    exact hnsup

theorem weak_step_grid_eq (g : Grid) (y : Pos) :
    weak_step_grid g y.1 y.2 = weak_step_spec g y := by
  unfold weak_step_grid
  split
  · rename_i hemp
    have hmv : weak_moves g = [] := List.isEmpty_iff.mp hemp
    have hnoocc : ∀ z : Pos, (g z.1 z.2).isSome = true → supported g z := by
      intro z hocc
      by_contra hnsup
      have hmem := move_of_unsupported g z hocc hnsup
      rw [hmv] at hmem
      cases hmem
    unfold weak_step_spec
    by_cases hsup : supported g y
    · rw [if_pos hsup]
    · rw [if_neg hsup]
      have hy : g y.1 y.2 = none := by
        cases hv : g y.1 y.2 with
        | none => rfl
        | some v =>
            exact absurd (hnoocc y (by rw [hv]; rfl)) hsup
      split
      · rw [if_neg, hy]
        rintro ⟨hocc2, hnsup2⟩
        exact hnsup2 (hnoocc _ hocc2)
      · exact hy
  · rename_i hne
    unfold weak_apply_moves
    by_cases hdest : ∃ m ∈ weak_moves g, m.2 = y
    · obtain ⟨m, hm, hm2⟩ := hdest
      obtain ⟨c, r, rfl, hocc, hnsup⟩ := (mem_weak_moves g m).mp hm
      have hy : y = (r.succ, c) := hm2.symm
      have hyval : y.1.val = r.val + 1 := by rw [hy]; rfl
      have h0 : y.1.val ≠ 0 := by omega
      have hult : y.1.val - 1 < 6 := by have := y.1.isLt; omega
      have hu : (⟨y.1.val - 1, hult⟩ : Fin 6) = r.castSucc := Fin.ext (by
        show y.1.val - 1 = r.val
        omega)
      have hc : y.2 = c := by rw [hy]
      have hx : ∀ m' ∈ weak_moves g, m'.2 = y →
          m'.1 = ((⟨y.1.val - 1, hult⟩ : Fin 6), y.2) := by
        intro m' hm' hm'2
        obtain ⟨c', r', rfl, -, -⟩ := (mem_weak_moves g m').mp hm'
        have hc' : c' = y.2 := by rw [← hm'2]
        have hr' : (Fin.succ r' : Fin 6) = y.1 := by rw [← hm'2]
        have hrv : (Fin.castSucc r' : Fin 6) = ⟨y.1.val - 1, hult⟩ := Fin.ext (by
          show r'.val = y.1.val - 1
          have hsv : (Fin.succ r' : Fin 6).val = r'.val + 1 := rfl
          rw [← hr']
          omega)
        rw [hc', hrv]
      rw [foldl_place_dest g (weak_moves g) (keep_grid g (weak_moves g)) y
        ((⟨y.1.val - 1, hult⟩ : Fin 6), y.2) hx
        ⟨((r.castSucc, c), (r.succ, c)), hm, hm2⟩]
      have hnsupy : ¬ supported g y := by
        rw [hy]
        intro hs
        exact hnsup ((supported_step g r c).mpr ⟨hocc, hs⟩)
      unfold weak_step_spec
      rw [if_neg hnsupy, dif_pos h0, if_pos]
      constructor
      · rw [hu, hc]
        exact hocc
      · rw [hu, hc]
        exact hnsup
    · rw [foldl_place_nodest g (weak_moves g) (keep_grid g (weak_moves g)) y
        (fun m hm hcon => hdest ⟨m, hm, hcon⟩)]
      unfold keep_grid weak_step_spec
      by_cases hsup : supported g y
      · rw [if_pos hsup]
        have hocc := supported_of_occ_le g y hsup
        have hnosrc : ((weak_moves g).any fun m => decide (m.1 = (y.1, y.2))) = false := by
          rw [List.any_eq_false]
          intro m hm
          obtain ⟨c', r', rfl, -, hnsup'⟩ := (mem_weak_moves g m).mp hm
          rw [decide_eq_true_iff]
          intro he
          have he' : ((r'.castSucc, c') : Pos) = (y.1, y.2) := he
          rw [he'] at hnsup'
          exact hnsup' hsup
        rw [hocc, hnosrc]
        rfl
      · rw [if_neg hsup]
        have hkeep : (if ((g y.1 y.2).isSome &&
            !((weak_moves g).any fun m => decide (m.1 = (y.1, y.2)))) = true then g y.1 y.2
            else none) = none := by
          by_cases hocc : (g y.1 y.2).isSome = true
          · have hmem := move_of_unsupported g y hocc hsup
            have hany : ((weak_moves g).any fun m => decide (m.1 = (y.1, y.2))) = true :=
              List.any_eq_true.mpr ⟨_, hmem, by rw [decide_eq_true_iff]⟩
            simp [hany]
          · rw [Bool.not_eq_true] at hocc
            simp [hocc]
        by_cases h0 : y.1.val ≠ 0
        · have hult : y.1.val - 1 < 6 := by have := y.1.isLt; omega
          have hns2 : ¬ ((g (⟨y.1.val - 1, hult⟩ : Fin 6) y.2).isSome = true ∧
              ¬ supported g ((⟨y.1.val - 1, hult⟩ : Fin 6), y.2)) := by
            rintro ⟨ho, hns⟩
            have hmem := move_of_unsupported g ((⟨y.1.val - 1, hult⟩ : Fin 6), y.2) ho hns
            refine hdest ⟨_, hmem, ?_⟩
            have hfst : (⟨y.1.val - 1 + 1, by have := y.1.isLt; omega⟩ : Fin 6) = y.1 :=
              Fin.ext (by show y.1.val - 1 + 1 = y.1.val; omega)
            exact Prod.ext hfst rfl
          rw [dif_pos h0, hkeep, if_neg hns2]
        · rw [dif_neg h0]
          exact hkeep

theorem weak_fixed_vec_bottom :
    ∀ v : Fin 6 → Bool, (5 : Fin 6) ∈ weak_fixed_vec v ↔ v 5 = true := by decide

theorem weak_fixed_vec_step_mem :
    ∀ (v : Fin 6 → Bool) (r : Fin 5),
      r.castSucc ∈ weak_fixed_vec v ↔
        (v r.castSucc = true ∧ r.succ ∈ weak_fixed_vec v) := by decide

/-- C5: weak gravity (`WeakGravityTokenPhysics`).  First conjunct: a token is
fixed iff it is in the bottom row or rests directly atop a fixed token.
Second conjunct: the snapshot step, cell by cell — every non-fixed token moves
down exactly one row simultaneously (`weak_step_spec` is the claim's
simultaneous-move description).  Third conjunct: `step_animation` always
clears the animating flag and performs exactly this one grid step.  Fourth
conjunct: the concrete scenario — a lone token at `(2,3)` ends at `(3,3)`
with every other cell empty. -/
theorem weak_gravity_step :
    (∀ (g : Grid) (c : Fin 7),
      ((5 : Fin 6) ∈ weak_fixed g c ↔ (g 5 c).isSome = true) ∧
      (∀ r : Fin 5, r.castSucc ∈ weak_fixed g c ↔
        ((g r.castSucc c).isSome = true ∧ r.succ ∈ weak_fixed g c))) ∧
    (∀ (g : Grid) (y : Pos), weak_step_grid g y.1 y.2 = weak_step_spec g y) ∧
    (∀ (b : Bool) (g : Grid),
      (step_animation ⟨.weak_gravity, b⟩ g).1.is_animating = false ∧
      (step_animation ⟨.weak_gravity, b⟩ g).2 = weak_step_grid g) ∧
    ((fun r c => if r.val = 2 ∧ c.val = 3 then some Player.P1 else none :
        Grid) |> fun gD =>
      weak_step_grid gD 3 3 = some Player.P1 ∧
      ∀ y : Pos, y ≠ ((3 : Fin 6), (3 : Fin 7)) → weak_step_grid gD y.1 y.2 = none) := by
  refine ⟨?_, weak_step_grid_eq, ?_, ?_⟩
  · intro g c
    rw [weak_fixed_eq_vec]
    exact ⟨weak_fixed_vec_bottom (colOcc g c),
      fun r => weak_fixed_vec_step_mem (colOcc g c) r⟩
  · intro b g
    exact ⟨rfl, rfl⟩
  · exact ⟨by decide, by decide⟩

theorem vec_settled_supported :
    ∀ v : Fin 6 → Bool, (∀ r : Fin 5, v r.castSucc = true → v r.succ = true) →
      ∀ r, v r = true → ∀ r', r ≤ r' → v r' = true := by decide

/-- On a settled grid every occupied cell is supported. -/
theorem settled_supported (g : Grid) (hs : settledP g) :
    ∀ z : Pos, (g z.1 z.2).isSome = true → supported g z := by
  intro z hocc
  exact vec_settled_supported (colOcc g z.2) (fun r h => hs r z.2 h) z.1 hocc

/-- A settled grid generates no weak-gravity moves. -/
theorem weak_moves_settled (g : Grid) (hs : settledP g) : weak_moves g = [] := by
  rw [weak_moves_eq, List.flatten_eq_nil_iff]
  intro l hl
  rw [List.mem_map] at hl
  obtain ⟨c, -, rfl⟩ := hl
  unfold weak_col_moves
  rw [List.filterMap_eq_nil_iff]
  intro r _
  rw [if_neg]
  intro hcond
  rw [Bool.and_eq_true, decide_eq_true_iff] at hcond
  exact hcond.2 ((weak_fixed_mem g c r.castSucc).mpr
    (settled_supported g hs (r.castSucc, c) hcond.1))

/-- C7: each physics variant's `step_animation` is a no-op on a settled grid,
leaving the animating flag down, and any pass that moves nothing clears the
flag.  Floating never animates and never touches the grid; strong gravity
leaves a settled grid unchanged and clears its flag whenever the pass moved
nothing; weak gravity leaves a settled grid unchanged and always clears its
flag after a step. -/
theorem physics_step_idempotent :
    (∀ (b : Bool) (g : Grid),
      step_animation ⟨.floating, b⟩ g = (⟨.floating, b⟩, g) ∧
      (Physics.is_animating ⟨.floating, b⟩) = false) ∧
    (∀ (b : Bool) (g : Grid), settledP g →
      step_animation ⟨.strong_gravity, b⟩ g = (⟨.strong_gravity, false⟩, g)) ∧
    (∀ (b : Bool) (g : Grid), settledP g →
      step_animation ⟨.weak_gravity, b⟩ g = (⟨.weak_gravity, false⟩, g)) ∧
    (∀ (b : Bool) (g : Grid), (strong_step g).2 = false →
      (step_animation ⟨.strong_gravity, b⟩ g).1.is_animating = false ∧
      (step_animation ⟨.strong_gravity, b⟩ g).2 = g) ∧
    (∀ (b : Bool) (g : Grid),
      (step_animation ⟨.weak_gravity, b⟩ g).1.is_animating = false) := by
  refine ⟨fun b g => ⟨rfl, rfl⟩, ?_, ?_, ?_, fun b g => rfl⟩
  · intro b g h
    have hs := strong_step_settled g h
    show ((if (strong_step g).2 then (⟨.strong_gravity, b⟩ : Physics)
      else ⟨.strong_gravity, false⟩), (strong_step g).1) = (⟨.strong_gravity, false⟩, g)
    rw [hs]
    rfl
  · intro b g h
    show ((⟨.weak_gravity, false⟩ : Physics), weak_step_grid g) =
      (⟨.weak_gravity, false⟩, g)
    unfold weak_step_grid
    rw [weak_moves_settled g h]
    rfl
  · intro b g h
    have hgr := (strong_step_nomove g h).1
    constructor
    · show (if (strong_step g).2 then (⟨.strong_gravity, b⟩ : Physics)
        else ⟨.strong_gravity, false⟩).is_animating = false
      rw [h]
      rfl
    · show (strong_step g).1 = g
      rw [hgr]

/-- Closed witness for `physics_step_idempotent`: on the (settled) empty grid
both gravity variants leave the grid unchanged and end with the flag down. -/
theorem physics_step_idempotent_witness :
    step_animation ⟨.strong_gravity, true⟩ (fun _ _ => none) =
      (⟨.strong_gravity, false⟩, fun _ _ => none) ∧
    step_animation ⟨.weak_gravity, true⟩ (fun _ _ => none) =
      (⟨.weak_gravity, false⟩, fun _ _ => none) ∧
    (step_animation ⟨.strong_gravity, true⟩ (fun _ _ => none)).1.is_animating = false :=
  ⟨physics_step_idempotent.2.1 true (fun _ _ => none) (by decide),
   physics_step_idempotent.2.2.1 true (fun _ _ => none) (by decide),
   (physics_step_idempotent.2.2.2.1 true (fun _ _ => none) (by decide)).1⟩

theorem player_count_eq_sum (g : Grid) (p : Player) :
    player_count g p = ∑ q : Pos, if g q.1 q.2 = some p then 1 else 0 := by
  unfold player_count
  rw [Finset.card_filter]

theorem occupied_count_eq_sum (g : Grid) :
    occupied_count g = ∑ q : Pos, if (g q.1 q.2).isSome = true then 1 else 0 := by
  unfold occupied_count
  rw [Finset.card_filter]

theorem setCell_self (g : Grid) (r : Fin 6) (c : Fin 7) (v : Cell) :
    setCell g r c v r c = v := by
  unfold setCell
  rw [if_pos ⟨rfl, rfl⟩]

theorem setCell_other (g : Grid) (r : Fin 6) (c : Fin 7) (v : Cell) (q : Pos)
    (h : q ≠ (r, c)) : setCell g r c v q.1 q.2 = g q.1 q.2 := by
  unfold setCell
  rw [if_neg]
  rintro ⟨h1, h2⟩
  exact h (Prod.ext h1 h2)

theorem player_count_setCell (g : Grid) (r : Fin 6) (c : Fin 7) (v : Cell) (p : Player) :
    player_count (setCell g r c v) p + (if g r c = some p then 1 else 0) =
    player_count g p + (if v = some p then 1 else 0) := by
  have h := sum_update_pos (fun q => if g q.1 q.2 = some p then 1 else 0)
    (fun q => if setCell g r c v q.1 q.2 = some p then 1 else 0) (r, c)
    (fun q hq => by
      show (if setCell g r c v q.1 q.2 = some p then 1 else 0) =
        (if g q.1 q.2 = some p then 1 else 0)
      rw [setCell_other g r c v q hq])
  simp only at h
  rw [player_count_eq_sum, player_count_eq_sum]
  have hv : setCell g r c v (r, c).1 (r, c).2 = v := setCell_self g r c v
  rw [hv] at h
  exact h

theorem occupied_count_setCell (g : Grid) (r : Fin 6) (c : Fin 7) (v : Cell) :
    occupied_count (setCell g r c v) + (if (g r c).isSome = true then 1 else 0) =
    occupied_count g + (if v.isSome = true then 1 else 0) := by
  have h := sum_update_pos (fun q => if (g q.1 q.2).isSome = true then 1 else 0)
    (fun q => if (setCell g r c v q.1 q.2).isSome = true then 1 else 0) (r, c)
    (fun q hq => by
      show (if (setCell g r c v q.1 q.2).isSome = true then 1 else 0) =
        (if (g q.1 q.2).isSome = true then 1 else 0)
      rw [setCell_other g r c v q hq])
  simp only at h
  rw [occupied_count_eq_sum, occupied_count_eq_sum]
  have hv : setCell g r c v (r, c).1 (r, c).2 = v := setCell_self g r c v
  rw [hv] at h
  exact h

theorem counts_move (g : Grid) (r : Fin 5) (c : Fin 7)
    (hemp : g r.succ c = none) :
    (∀ p, player_count
      (setCell (setCell g r.succ c (g r.castSucc c)) r.castSucc c none) p =
      player_count g p) ∧
    occupied_count (setCell (setCell g r.succ c (g r.castSucc c)) r.castSucc c none) =
      occupied_count g := by
  have hne : ((r.castSucc : Fin 6), c) ≠ ((r.succ : Fin 6), c) := by
    intro h
    have h1 : (r.castSucc : Fin 6) = r.succ := congrArg Prod.fst h
    have h2 := congrArg Fin.val h1
    have h3 : (r.castSucc : Fin 6).val = r.val := rfl
    have h4 : (r.succ : Fin 6).val = r.val + 1 := rfl
    omega
  have hkeep : setCell g r.succ c (g r.castSucc c) r.castSucc c = g r.castSucc c :=
    setCell_other g r.succ c (g r.castSucc c) (r.castSucc, c) hne
  constructor
  · intro p
    have h1 := player_count_setCell g r.succ c (g r.castSucc c) p
    have h2 := player_count_setCell (setCell g r.succ c (g r.castSucc c))
      r.castSucc c none p
    rw [hkeep] at h2
    rw [hemp] at h1
    have hz : (if (none : Cell) = some p then 1 else 0) = 0 := by simp
    rw [hz] at h1 h2
    by_cases hc : g r.castSucc c = some p
    · rw [if_pos hc] at h1 h2
      omega
    · rw [if_neg hc] at h1 h2
      omega
  · have h1 := occupied_count_setCell g r.succ c (g r.castSucc c)
    have h2 := occupied_count_setCell (setCell g r.succ c (g r.castSucc c))
      r.castSucc c none
    rw [hkeep] at h2
    rw [hemp] at h1
    have hz : (if (Option.isSome (none : Cell)) = true then 1 else 0) = 0 := by simp
    rw [hz] at h1 h2
    by_cases hc : (g r.castSucc c).isSome = true
    · rw [if_pos hc] at h1 h2
      omega
    · rw [if_neg hc] at h1 h2
      omega

/-- A strong-gravity pass conserves every player's token count and the total
number of tokens. -/
theorem strong_step_counts (g : Grid) :
    (∀ p, player_count (strong_step g).1 p = player_count g p) ∧
    occupied_count (strong_step g).1 = occupied_count g := by
  have hcell : ∀ (r : Fin 5) (gm : Grid × Bool) (c : Fin 7),
      ((∀ p, player_count gm.1 p = player_count g p) ∧
        occupied_count gm.1 = occupied_count g) →
      ((∀ p, player_count (strong_step_cell r gm c).1 p = player_count g p) ∧
        occupied_count (strong_step_cell r gm c).1 = occupied_count g) := by
    rintro r gm c ⟨h1, h2⟩
    unfold strong_step_cell
    split
    · rename_i hfire
      rw [Bool.and_eq_true, Option.isNone_iff_eq_none] at hfire
      have hm := counts_move gm.1 r c hfire.2
      exact ⟨fun p => by rw [hm.1 p]; exact h1 p, by rw [hm.2]; exact h2⟩
    · exact ⟨h1, h2⟩
  have hrow : ∀ (gm : Grid × Bool) (r : Fin 5),
      ((∀ p, player_count gm.1 p = player_count g p) ∧
        occupied_count gm.1 = occupied_count g) →
      ((∀ p, player_count (strong_step_row gm r).1 p = player_count g p) ∧
        occupied_count (strong_step_row gm r).1 = occupied_count g) := by
    intro gm r hgm
    unfold strong_step_row
    have H := foldl_preserves
      (fun a : Grid × Bool => (∀ p, player_count a.1 p = player_count g p) ∧
        occupied_count a.1 = occupied_count g)
      (strong_step_cell r) (fun a x ha => hcell r a x ha)
    exact H (List.finRange 7) gm hgm
  unfold strong_step
  have H := foldl_preserves
    (fun a : Grid × Bool => (∀ p, player_count a.1 p = player_count g p) ∧
      occupied_count a.1 = occupied_count g)
    strong_step_row (fun a x ha => hrow a x ha)
  exact H ((List.finRange 5).reverse) (g, false) ⟨fun _ => rfl, rfl⟩

/-- Where a falling token goes (one row down); identity on supported cells. -/
def fallDest (g : Grid) (y : Pos) : Pos :=
  if supported g y then y
  else if h : y.1.val < 5 then ((⟨y.1.val + 1, by omega⟩ : Fin 6), y.2) else y

/-- Where a cell's new token came from (one row up); identity on supported
cells. -/
def fallSrc (g : Grid) (y : Pos) : Pos :=
  if supported g y then y
  else if h : 0 < y.1.val then ((⟨y.1.val - 1, by have := y.1.isLt; omega⟩ : Fin 6), y.2)
  else y

theorem fallDest_unsupported (g : Grid) (y : Pos)
    (hocc : (g y.1 y.2).isSome = true) (hns : ¬ supported g y) :
    ∃ hlt : y.1.val < 5,
      fallDest g y = ((⟨y.1.val + 1, by omega⟩ : Fin 6), y.2) ∧
      ¬ supported g ((⟨y.1.val + 1, by omega⟩ : Fin 6), y.2) ∧
      weak_step_grid g (⟨y.1.val + 1, by omega⟩ : Fin 6) y.2 = g y.1 y.2 := by
  have hlt : y.1.val < 5 := unsupported_lt g y hocc hns
  refine ⟨hlt, ?_, ?_, ?_⟩
  · unfold fallDest
    rw [if_neg hns, dif_pos hlt]
  · intro hs
    have hcs : (Fin.castSucc ⟨y.1.val, hlt⟩ : Fin 6) = y.1 := Fin.ext rfl
    have hss : (Fin.succ ⟨y.1.val, hlt⟩ : Fin 6) = ⟨y.1.val + 1, by omega⟩ := Fin.ext rfl
    have := (supported_step g ⟨y.1.val, hlt⟩ y.2).mpr (by
      rw [hcs, hss]
      exact ⟨hocc, hs⟩)
    rw [hcs] at this
    exact hns this
  · have hd := weak_step_grid_eq g ((⟨y.1.val + 1, by omega⟩ : Fin 6), y.2)
    rw [hd]
    unfold weak_step_spec
    rw [if_neg, dif_pos, if_pos]
    · have hu : (⟨y.1.val + 1 - 1, by omega⟩ : Fin 6) = y.1 := Fin.ext (by
        show y.1.val + 1 - 1 = y.1.val
        omega)
      show g (⟨y.1.val + 1 - 1, _⟩ : Fin 6) y.2 = g y.1 y.2
      rw [hu]
    · have hu : (⟨y.1.val + 1 - 1, by omega⟩ : Fin 6) = y.1 := Fin.ext (by
        show y.1.val + 1 - 1 = y.1.val
        omega)
      constructor
      · show (g (⟨y.1.val + 1 - 1, _⟩ : Fin 6) y.2).isSome = true
        rw [hu]
        exact hocc
      · show ¬ supported g ((⟨y.1.val + 1 - 1, _⟩ : Fin 6), y.2)
        rw [hu]
        exact hns
    · show (⟨y.1.val + 1, _⟩ : Fin 6).val ≠ 0
      show y.1.val + 1 ≠ 0
      omega
    · intro hs
      have hcs : (Fin.castSucc ⟨y.1.val, hlt⟩ : Fin 6) = y.1 := Fin.ext rfl
      have hss : (Fin.succ ⟨y.1.val, hlt⟩ : Fin 6) = ⟨y.1.val + 1, by omega⟩ := Fin.ext rfl
      have := (supported_step g ⟨y.1.val, hlt⟩ y.2).mpr (by
        rw [hcs, hss]
        exact ⟨hocc, hs⟩)
      rw [hcs] at this
      exact hns this

theorem weak_step_supported_val (g : Grid) (y : Pos) (hs : supported g y) :
    weak_step_grid g y.1 y.2 = g y.1 y.2 := by
  rw [weak_step_grid_eq]
  unfold weak_step_spec
  rw [if_pos hs]

theorem weak_step_occupied_src (g : Grid) (y : Pos)
    (hocc : (weak_step_grid g y.1 y.2).isSome = true) (hns : ¬ supported g y) :
    ∃ h0 : 0 < y.1.val,
      weak_step_grid g y.1 y.2 =
        g (⟨y.1.val - 1, by have := y.1.isLt; omega⟩ : Fin 6) y.2 ∧
      (g (⟨y.1.val - 1, by have := y.1.isLt; omega⟩ : Fin 6) y.2).isSome = true ∧
      ¬ supported g ((⟨y.1.val - 1, by have := y.1.isLt; omega⟩ : Fin 6), y.2) := by
  rw [weak_step_grid_eq] at hocc ⊢
  unfold weak_step_spec at hocc ⊢
  rw [if_neg hns] at hocc ⊢
  by_cases h0 : y.1.val ≠ 0
  · rw [dif_pos h0] at hocc ⊢
    by_cases hcond : (g (⟨y.1.val - 1, by have := y.1.isLt; omega⟩ : Fin 6) y.2).isSome =
        true ∧ ¬ supported g ((⟨y.1.val - 1, by have := y.1.isLt; omega⟩ : Fin 6), y.2)
    · rw [if_pos hcond] at hocc ⊢
      exact ⟨by omega, rfl, hcond.1, hcond.2⟩
    · rw [if_neg hcond] at hocc
      cases hocc
  · rw [dif_neg h0] at hocc
    cases hocc

/-- One weak-gravity step conserves the number of cells whose content
satisfies any predicate that rejects empty cells — tokens are relocated,
never created, destroyed or recolored. -/
theorem weak_step_count (g : Grid) (φ : Cell → Bool) (hφ : φ none = false) :
    ((Finset.univ : Finset Pos).filter fun y => φ (weak_step_grid g y.1 y.2) = true).card =
    ((Finset.univ : Finset Pos).filter fun y => φ (g y.1 y.2) = true).card := by
  have hso : ∀ x : Cell, φ x = true → x.isSome = true := by
    intro x hx
    cases x with
    | none => rw [hφ] at hx; cases hx
    | some v => rfl
  refine Finset.card_bij' (fun y _ => fallSrc g y) (fun y _ => fallDest g y)
    ?_ ?_ ?_ ?_
  · intro y hy
    rw [Finset.mem_filter] at hy ⊢
    refine ⟨Finset.mem_univ _, ?_⟩
    show φ (g (fallSrc g y).1 (fallSrc g y).2) = true
    by_cases hs : supported g y
    · have h1 : fallSrc g y = y := by
        simp only [fallSrc]
        rw [if_pos hs]
      rw [h1, ← weak_step_supported_val g y hs]
      exact hy.2
    · obtain ⟨h0, hval, hocc2, -⟩ :=
        weak_step_occupied_src g y (hso _ hy.2) hs
      have h1 : fallSrc g y =
          ((⟨y.1.val - 1, by have := y.1.isLt; omega⟩ : Fin 6), y.2) := by
        simp only [fallSrc]
        rw [if_neg hs, dif_pos h0]
      rw [h1, ← hval]
      exact hy.2
  · intro y hy
    rw [Finset.mem_filter] at hy ⊢
    refine ⟨Finset.mem_univ _, ?_⟩
    show φ (weak_step_grid g (fallDest g y).1 (fallDest g y).2) = true
    by_cases hs : supported g y
    · have h1 : fallDest g y = y := by
        simp only [fallDest]
        rw [if_pos hs]
      rw [h1, weak_step_supported_val g y hs]
      exact hy.2
    · obtain ⟨hlt, hd, -, hval⟩ := fallDest_unsupported g y (hso _ hy.2) hs
      rw [hd]
      show φ (weak_step_grid g (⟨y.1.val + 1, _⟩ : Fin 6) y.2) = true
      rw [hval]
      exact hy.2
  · intro y hy
    rw [Finset.mem_filter] at hy
    show fallDest g (fallSrc g y) = y
    by_cases hs : supported g y
    · have h1 : fallSrc g y = y := by
        simp only [fallSrc]
        rw [if_pos hs]
      have h2 : fallDest g y = y := by
        simp only [fallDest]
        rw [if_pos hs]
      rw [h1, h2]
    · obtain ⟨h0, hval, hocc2, hns2⟩ :=
        weak_step_occupied_src g y (hso _ hy.2) hs
      have hsrc : fallSrc g y =
          ((⟨y.1.val - 1, by have := y.1.isLt; omega⟩ : Fin 6), y.2) := by
        simp only [fallSrc]
        rw [if_neg hs, dif_pos h0]
      rw [hsrc]
      simp only [fallDest]
      rw [if_neg hns2, dif_pos]
      · refine Prod.ext (Fin.ext ?_) rfl
        show y.1.val - 1 + 1 = y.1.val
        omega
      · show y.1.val - 1 < 5
        have := y.1.isLt
        omega
  · intro y hy
    rw [Finset.mem_filter] at hy
    show fallSrc g (fallDest g y) = y
    by_cases hs : supported g y
    · have h1 : fallSrc g y = y := by
        simp only [fallSrc]
        rw [if_pos hs]
      have h2 : fallDest g y = y := by
        simp only [fallDest]
        rw [if_pos hs]
      rw [h2, h1]
    · obtain ⟨hlt, hd, hns2, -⟩ := fallDest_unsupported g y (hso _ hy.2) hs
      rw [hd]
      simp only [fallSrc]
      rw [if_neg hns2, dif_pos]
      · refine Prod.ext (Fin.ext ?_) rfl
        show y.1.val + 1 - 1 = y.1.val
        omega
      · show 0 < y.1.val + 1
        omega

theorem weak_step_player_count (g : Grid) (p : Player) :
    player_count (weak_step_grid g) p = player_count g p := by
  have h := weak_step_count g (fun cell => decide (cell = some p)) (by simp)
  unfold player_count
  have e1 : (Finset.univ : Finset Pos).filter
        (fun q => weak_step_grid g q.1 q.2 = some p) =
      Finset.univ.filter
        (fun y => decide (weak_step_grid g y.1 y.2 = some p) = true) :=
    Finset.filter_congr (fun y _ => by simp)
  have e2 : (Finset.univ : Finset Pos).filter (fun q => g q.1 q.2 = some p) =
      Finset.univ.filter (fun y => decide (g y.1 y.2 = some p) = true) :=
    Finset.filter_congr (fun y _ => by simp)
  rw [e1, e2]
  exact h

theorem weak_step_occupied_count (g : Grid) :
    occupied_count (weak_step_grid g) = occupied_count g := by
  have h := weak_step_count g Option.isSome rfl
  unfold occupied_count
  exact h

/-- `apply_physics` never changes the variant. -/
theorem apply_physics_kind (ph : Physics) (g : Grid) :
    (apply_physics ph g).kind = ph.kind := by
  unfold apply_physics
  rcases ph with ⟨k, b⟩
  cases k <;> dsimp <;> split <;> rfl

/-- `step_animation` never changes the variant. -/
theorem step_animation_kind (ph : Physics) (g : Grid) :
    (step_animation ph g).1.kind = ph.kind := by
  unfold step_animation
  rcases ph with ⟨k, b⟩
  cases k
  · rfl
  · dsimp
    split <;> rfl
  · rfl

/-- The grid produced by `step_animation` carries the same token counts. -/
theorem step_animation_counts (ph : Physics) (g : Grid) :
    (∀ p, player_count (step_animation ph g).2 p = player_count g p) ∧
    occupied_count (step_animation ph g).2 = occupied_count g := by
  unfold step_animation
  rcases ph with ⟨k, b⟩
  cases k
  · exact ⟨fun p => rfl, rfl⟩
  · dsimp
    exact ⟨fun p => (strong_step_counts g).1 p, (strong_step_counts g).2⟩
  · dsimp
    exact ⟨fun p => weak_step_player_count g p, weak_step_occupied_count g⟩

/-- `step_physics` preserves all token counts. -/
theorem step_physics_counts (m : Model) :
    (∀ p, player_count (step_physics m).grid p = player_count m.grid p) ∧
    occupied_count (step_physics m).grid = occupied_count m.grid := by
  unfold step_physics
  split
  · dsimp only
    split
    · rw [finish_turn_grid]
      dsimp only
      exact step_animation_counts m.token_physics m.grid
    · dsimp only
      exact step_animation_counts m.token_physics m.grid
  · exact ⟨fun p => rfl, rfl⟩

/-- `step_physics` preserves the physics variant. -/
theorem step_physics_kind (m : Model) :
    (step_physics m).token_physics.kind = m.token_physics.kind := by
  unfold step_physics
  split
  · dsimp only
    split
    · rw [finish_turn_physics]
      dsimp only
      exact step_animation_kind m.token_physics m.grid
    · dsimp only
      exact step_animation_kind m.token_physics m.grid
  · rfl

theorem is_animating_false_of_flag (ph : Physics) (h : ph.animating = false) :
    ph.is_animating = false := by
  rcases ph with ⟨k, b⟩
  cases b
  · cases k <;> rfl
  · cases h

theorem floating_not_animating (ph : Physics) (h : ph.kind = .floating) :
    ph.is_animating = false := by
  rcases ph with ⟨k, b⟩
  cases k
  · rfl
  · cases h
  · cases h

/-- While animating, `step_physics` applies `step_animation` to the physics
and grid (the possible `_finish_turn` afterwards touches neither). -/
theorem step_physics_animating (m : Model) (ha : m.token_physics.is_animating = true) :
    (step_physics m).token_physics = (step_animation m.token_physics m.grid).1 ∧
    (step_physics m).grid = (step_animation m.token_physics m.grid).2 := by
  unfold step_physics
  rw [if_pos ha]
  dsimp only
  split
  · rw [finish_turn_physics, finish_turn_grid]
    exact ⟨rfl, rfl⟩
  · exact ⟨rfl, rfl⟩

/-- From any model state, repeated `step_physics` calls end the animation. -/
theorem step_physics_drain (m : Model) :
    ∃ n, (step_physics^[n] m).token_physics.is_animating = false := by
  by_cases ha : m.token_physics.is_animating = true
  swap
  · exact ⟨0, Bool.eq_false_iff.mpr ha⟩
  rcases hk : m.token_physics.kind with _ | _ | _
  · exact absurd (floating_not_animating _ hk) (by rw [ha]; simp)
  · -- strong gravity: induct on the measure
    have H : ∀ (k : Nat) (m : Model), m.token_physics.kind = .strong_gravity →
        pot m.grid ≤ k → ∃ n, (step_physics^[n] m).token_physics.is_animating = false := by
      intro k
      induction k with
      | zero =>
          intro m hk hp
          by_cases ha : m.token_physics.is_animating = true
          · refine ⟨1, ?_⟩
            have hs := step_physics_animating m ha
            rw [Function.iterate_one, hs.1]
            have hmv : (strong_step m.grid).2 = false := by
              by_contra hmv
              have := (strong_step_pot m.grid).2 (Bool.not_eq_false _ ▸ (by simpa using hmv))
              omega
            rcases hph : m.token_physics with ⟨k', b⟩
            rw [hph] at hk
            dsimp at hk
            subst hk
            show (step_animation ⟨.strong_gravity, b⟩ m.grid).1.is_animating = false
            rw [strong_step_flag b m.grid, hmv]
            rfl
          · exact ⟨0, Bool.eq_false_iff.mpr ha⟩
      | succ k ih =>
          intro m hk hp
          by_cases ha : m.token_physics.is_animating = true
          · have hs := step_physics_animating m ha
            by_cases hmv : (strong_step m.grid).2 = true
            · have hlt := (strong_step_pot m.grid).2 hmv
              have hk' : (step_physics m).token_physics.kind = .strong_gravity := by
                rw [step_physics_kind, hk]
              have hg : (step_physics m).grid = (strong_step m.grid).1 := by
                rw [hs.2]
                rcases hph : m.token_physics with ⟨k', b⟩
                rw [hph] at hk
                dsimp at hk
                subst hk
                rfl
              obtain ⟨n, hn⟩ := ih (step_physics m) hk' (by rw [hg]; omega)
              exact ⟨n + 1, by rwa [Function.iterate_succ_apply]⟩
            · refine ⟨1, ?_⟩
              rw [Function.iterate_one, hs.1]
              rcases hph : m.token_physics with ⟨k', b⟩
              rw [hph] at hk
              dsimp at hk
              subst hk
              show (step_animation ⟨.strong_gravity, b⟩ m.grid).1.is_animating = false
              rw [strong_step_flag b m.grid, Bool.eq_false_iff.mpr hmv]
              rfl
          · exact ⟨0, Bool.eq_false_iff.mpr ha⟩
    exact H (pot m.grid) m hk (le_refl _)
  · -- weak gravity: a single step clears the flag
    refine ⟨1, ?_⟩
    have hs := step_physics_animating m ha
    rw [Function.iterate_one, hs.1]
    rcases hph : m.token_physics with ⟨k', b⟩
    rw [hph] at hk
    dsimp at hk
    subst hk
    show (step_animation ⟨.weak_gravity, b⟩ m.grid).1.is_animating = false
    rfl

/-- Full characterization of `choose_cell`: the four rejection cases return
the state unchanged, and a successful placement yields exactly the placed
grid, the physics after `apply_physics`, and either a pending turn end or an
immediately resolved turn. -/
theorem choose_cell_cases (m : Model) (row col : Int) :
    (m.is_game_done = true → choose_cell m row col = (false, m)) ∧
    (m.is_animating = true → choose_cell m row col = (false, m)) ∧
    (is_valid_coordinate row col = false → choose_cell m row col = (false, m)) ∧
    (∀ (hr : 0 ≤ row ∧ row < 6) (hc : 0 ≤ col ∧ col < 7),
      (m.grid ⟨row.toNat, by omega⟩ ⟨col.toNat, by omega⟩).isSome = true →
      choose_cell m row col = (false, m)) ∧
    (m.is_game_done = false → m.is_animating = false →
      ∀ (hr : 0 ≤ row ∧ row < 6) (hc : 0 ≤ col ∧ col < 7),
      m.grid ⟨row.toNat, by omega⟩ ⟨col.toNat, by omega⟩ = none →
      choose_cell m row col = (true,
        if (apply_physics m.token_physics (setCell m.grid ⟨row.toNat, by omega⟩
            ⟨col.toNat, by omega⟩ (some m.current_player))).is_animating = true then
          { m with
            grid := setCell m.grid ⟨row.toNat, by omega⟩ ⟨col.toNat, by omega⟩
              (some m.current_player),
            token_physics := apply_physics m.token_physics (setCell m.grid
              ⟨row.toNat, by omega⟩ ⟨col.toNat, by omega⟩ (some m.current_player)),
            pending_turn_end := true }
        else
          finish_turn { m with
            grid := setCell m.grid ⟨row.toNat, by omega⟩ ⟨col.toNat, by omega⟩
              (some m.current_player),
            token_physics := apply_physics m.token_physics (setCell m.grid
              ⟨row.toNat, by omega⟩ ⟨col.toNat, by omega⟩ (some m.current_player)) })) := by
  refine ⟨?_, ?_, ?_, ?_, ?_⟩
  · intro h
    simp [choose_cell, h]
  · intro h
    by_cases hd : m.is_game_done <;> simp [choose_cell, hd, h]
  · intro h
    by_cases hd : m.is_game_done
    · simp [choose_cell, hd]
    · by_cases ha : m.is_animating <;> simp [choose_cell, hd, ha, h]
  · intro hr hc hocc
    by_cases hd : m.is_game_done
    · simp [choose_cell, hd]
    · by_cases ha : m.is_animating
      · simp [choose_cell, hd, ha]
      · have hv : is_valid_coordinate row col = true := by
          simp [is_valid_coordinate]
          omega
        simp [choose_cell, hd, ha, hv, hocc]
  · intro hd ha hr hc hemp
    have hv : is_valid_coordinate row col = true := by
      simp [is_valid_coordinate]
      omega
    simp only [choose_cell, hd, ha, hv, hemp, Model.is_animating] at *
    simp [hd, ha, hemp]
    split <;> rfl

/-- A successful `choose_cell` adds exactly one token of the current player
and keeps the physics variant. -/
theorem choose_cell_success (m : Model) (row col : Int)
    (h : (choose_cell m row col).1 = true) :
    (∀ p, player_count (choose_cell m row col).2.grid p =
      player_count m.grid p + (if p = m.current_player then 1 else 0)) ∧
    occupied_count (choose_cell m row col).2.grid = occupied_count m.grid + 1 ∧
    (choose_cell m row col).2.token_physics.kind = m.token_physics.kind := by
  have hcc := choose_cell_cases m row col
  have hd : m.is_game_done = false := by
    by_cases hd : m.is_game_done = true
    · rw [hcc.1 hd] at h
      cases h
    · exact Bool.eq_false_iff.mpr hd
  have ha : m.is_animating = false := by
    by_cases ha : m.is_animating = true
    · rw [hcc.2.1 ha] at h
      cases h
    · exact Bool.eq_false_iff.mpr ha
  have hv : is_valid_coordinate row col = true := by
    by_cases hv : is_valid_coordinate row col = true
    · exact hv
    · rw [hcc.2.2.1 (Bool.eq_false_iff.mpr hv)] at h
      cases h
  have hb := of_decide_eq_true hv
  have hr : 0 ≤ row ∧ row < 6 := ⟨hb.1, hb.2.1⟩
  have hc : 0 ≤ col ∧ col < 7 := ⟨hb.2.2.1, hb.2.2.2⟩
  have hemp : m.grid ⟨row.toNat, by omega⟩ ⟨col.toNat, by omega⟩ = none := by
    cases hg : m.grid ⟨row.toNat, by omega⟩ ⟨col.toNat, by omega⟩ with
    | none => rfl
    | some v =>
        rw [hcc.2.2.2.1 hr hc (by rw [hg]; rfl)] at h
        cases h
  have hs := hcc.2.2.2.2 hd ha hr hc hemp
  have hkey : ∀ M : Model,
      M.grid = setCell m.grid ⟨row.toNat, by omega⟩ ⟨col.toNat, by omega⟩
        (some m.current_player) →
      M.token_physics = apply_physics m.token_physics (setCell m.grid
        ⟨row.toNat, by omega⟩ ⟨col.toNat, by omega⟩ (some m.current_player)) →
      (∀ p, player_count M.grid p =
        player_count m.grid p + (if p = m.current_player then 1 else 0)) ∧
      occupied_count M.grid = occupied_count m.grid + 1 ∧
      M.token_physics.kind = m.token_physics.kind := by
    intro M hMg hMp
    refine ⟨?_, ?_, ?_⟩
    · intro p
      rw [hMg]
      have hc2 := player_count_setCell m.grid ⟨row.toNat, by omega⟩
        ⟨col.toNat, by omega⟩ (some m.current_player) p
      rw [hemp] at hc2
      have hz : (if (none : Cell) = some p then 1 else 0) = 0 := by simp
      rw [hz] at hc2
      have hiff : (if (some m.current_player : Cell) = some p then 1 else 0) =
          (if p = m.current_player then 1 else 0) := by
        by_cases he : p = m.current_player
        · rw [if_pos (by rw [he]), if_pos he]
        · rw [if_neg (fun hcon => he (Option.some_injective _ hcon).symm), if_neg he]
      omega
    · rw [hMg]
      have hc2 := occupied_count_setCell m.grid ⟨row.toNat, by omega⟩
        ⟨col.toNat, by omega⟩ (some m.current_player)
      rw [hemp] at hc2
      simp at hc2
      omega
    · rw [hMp, apply_physics_kind]
  by_cases hC : (apply_physics m.token_physics (setCell m.grid ⟨row.toNat, by omega⟩
      ⟨col.toNat, by omega⟩ (some m.current_player))).is_animating = true
  · rw [if_pos hC] at hs
    rw [hs]
    exact hkey _ rfl rfl
  · rw [if_neg hC] at hs
    rw [hs]
    exact hkey _ (finish_turn_grid _) (finish_turn_physics _)


theorem other_ne : ∀ p : Player, p.other ≠ p := by decide

/-- C6: placing a token and fully draining the resulting animation (any
physics variant, any state in which the placement succeeds) leaves exactly
one more occupied cell, owned by the player who moved; the other player's
count is unchanged. -/
theorem place_drain_conservation (m : Model) (row col : Int)
    (h : (choose_cell m row col).1 = true) :
    ∃ n,
      ((step_physics^[n]) (choose_cell m row col).2).is_animating = false ∧
      occupied_count ((step_physics^[n]) (choose_cell m row col).2).grid =
        occupied_count m.grid + 1 ∧
      player_count ((step_physics^[n]) (choose_cell m row col).2).grid
          m.current_player =
        player_count m.grid m.current_player + 1 ∧
      player_count ((step_physics^[n]) (choose_cell m row col).2).grid
          m.current_player.other =
        player_count m.grid m.current_player.other := by
  obtain ⟨hp, hoc, hk⟩ := choose_cell_success m row col h
  obtain ⟨n, hn⟩ := step_physics_drain (choose_cell m row col).2
  have hiter : ∀ (k : Nat) (M : Model),
      (∀ p, player_count ((step_physics^[k]) M).grid p = player_count M.grid p) ∧
      occupied_count ((step_physics^[k]) M).grid = occupied_count M.grid := by
    intro k
    induction k with
    | zero => exact fun M => ⟨fun p => rfl, rfl⟩
    | succ k ih =>
        intro M
        rw [Function.iterate_succ_apply]
        exact ⟨fun p => by rw [(ih (step_physics M)).1 p, (step_physics_counts M).1 p],
          by rw [(ih (step_physics M)).2, (step_physics_counts M).2]⟩
  refine ⟨n, hn, ?_, ?_, ?_⟩
  · rw [(hiter n _).2, hoc]
  · rw [(hiter n _).1 _, hp m.current_player, if_pos rfl]
  · rw [(hiter n _).1 _, hp m.current_player.other,
      if_neg (other_ne m.current_player)]
    omega

/-- Closed witness for `place_drain_conservation`: the fresh floating-physics
model after a successful placement at `(0,0)`. -/
theorem place_drain_conservation_witness :
    ∃ n,
      ((step_physics^[n]) (choose_cell (Model.init .tic_tac_toe .floating) 0 0).2
        ).is_animating = false ∧
      occupied_count ((step_physics^[n])
          (choose_cell (Model.init .tic_tac_toe .floating) 0 0).2).grid =
        occupied_count (Model.init .tic_tac_toe .floating).grid + 1 ∧
      player_count ((step_physics^[n])
          (choose_cell (Model.init .tic_tac_toe .floating) 0 0).2).grid
          (Model.init .tic_tac_toe .floating).current_player =
        player_count (Model.init .tic_tac_toe .floating).grid
          (Model.init .tic_tac_toe .floating).current_player + 1 ∧
      player_count ((step_physics^[n])
          (choose_cell (Model.init .tic_tac_toe .floating) 0 0).2).grid
          (Model.init .tic_tac_toe .floating).current_player.other =
        player_count (Model.init .tic_tac_toe .floating).grid
          (Model.init .tic_tac_toe .floating).current_player.other :=
  place_drain_conservation (Model.init .tic_tac_toe .floating) 0 0 (by decide)

/-- The engine-state invariant maintained by every reachable state. -/
def EngineInv (m : Model) : Prop :=
  (m.is_game_done = true → m.is_animating = false) ∧
  (m.winner.isSome = true → m.is_game_done = true) ∧
  (m.both_players_won = true → m.is_game_done = true ∧ m.winner = none) ∧
  (m.pending_turn_end = true → m.is_animating = true)

/-- Either `choose_cell` rejects (state unchanged) or it performs the
placement shape of `choose_cell_cases`. -/
theorem choose_cell_shape (m : Model) (row col : Int) :
    (choose_cell m row col).2 = m ∨
    (m.is_game_done = false ∧ m.is_animating = false ∧
      ∃ g' : Grid, (choose_cell m row col).2 =
        if (apply_physics m.token_physics g').is_animating = true then
          { m with
            grid := g'
            token_physics := apply_physics m.token_physics g'
            pending_turn_end := true }
        else finish_turn { m with
          grid := g'
          token_physics := apply_physics m.token_physics g' }) := by
  have hcc := choose_cell_cases m row col
  by_cases hd : m.is_game_done = true
  · exact Or.inl (by rw [hcc.1 hd])
  by_cases ha : m.is_animating = true
  · exact Or.inl (by rw [hcc.2.1 ha])
  by_cases hv : is_valid_coordinate row col = true
  swap
  · exact Or.inl (by rw [hcc.2.2.1 (Bool.eq_false_iff.mpr hv)])
  have hb := of_decide_eq_true hv
  have hr : 0 ≤ row ∧ row < 6 := ⟨hb.1, hb.2.1⟩
  have hc : 0 ≤ col ∧ col < 7 := ⟨hb.2.2.1, hb.2.2.2⟩
  by_cases hocc : (m.grid ⟨row.toNat, by omega⟩ ⟨col.toNat, by omega⟩).isSome = true
  · exact Or.inl (by rw [hcc.2.2.2.1 hr hc hocc])
  · have hemp : m.grid ⟨row.toNat, by omega⟩ ⟨col.toNat, by omega⟩ = none := by
      cases hg : m.grid ⟨row.toNat, by omega⟩ ⟨col.toNat, by omega⟩ with
      | none => rfl
      | some v => exact absurd (by rw [hg]; rfl) hocc
    refine Or.inr ⟨Bool.eq_false_iff.mpr hd, Bool.eq_false_iff.mpr ha,
      setCell m.grid ⟨row.toNat, by omega⟩ ⟨col.toNat, by omega⟩
        (some m.current_player), ?_⟩
    rw [hcc.2.2.2.2 (Bool.eq_false_iff.mpr hd) (Bool.eq_false_iff.mpr ha) hr hc hemp]

/-- `_finish_turn`, invoked on a state with no recorded result and no running
animation, restores the engine invariant. -/
theorem finish_turn_inv (m : Model) (ha : m.is_animating = false)
    (hw : m.winner = none) (hb : m.both_players_won = false) :
    EngineInv (finish_turn m) := by
  have hph := finish_turn_physics m
  have hanim : (finish_turn m).is_animating = false := by
    show (finish_turn m).token_physics.is_animating = false
    rw [hph]
    exact ha
  have hpend := finish_turn_pending m
  refine ⟨fun _ => hanim, ?_, ?_, fun hp => by rw [hpend] at hp; cases hp⟩
  · intro hwin
    unfold finish_turn at hwin ⊢
    dsimp only at hwin ⊢
    split_ifs at hwin ⊢ <;> first
      | rfl
      | (rw [hw] at hwin; cases hwin)
  · intro hboth
    unfold finish_turn at hboth ⊢
    dsimp only at hboth ⊢
    split_ifs at hboth ⊢ <;> first
      | exact ⟨rfl, rfl⟩
      | (rw [hb] at hboth; cases hboth)

/-- `EngineInv` holds in every reachable engine state. -/
theorem reachable_inv (m : Model) (h : Reachable m) : EngineInv m := by
  induction h with
  | init w k =>
      exact ⟨fun _ => is_animating_false_of_flag _ rfl, fun h => (by cases h),
        fun h => (by cases h), fun h => (by cases h)⟩
  | choose m row col hm ih =>
      rcases choose_cell_shape m row col with he | ⟨hd, ha, g', he⟩
      · rw [he]
        exact ih
      · rw [he]
        have hw : m.winner = none := by
          cases hv : m.winner with
          | none => rfl
          | some p =>
              have := ih.2.1 (by rw [hv]; rfl)
              rw [hd] at this
              cases this
        have hb : m.both_players_won = false := by
          cases hv : m.both_players_won with
          | false => rfl
          | true =>
              have := (ih.2.2.1 hv).1
              rw [hd] at this
              cases this
        split
        · rename_i hC
          refine ⟨fun hdone => (by rw [hd] at hdone; cases hdone), ?_, ?_, fun _ => hC⟩
          · intro hwin
            rw [hw] at hwin
            cases hwin
          · intro hboth
            rw [hb] at hboth
            cases hboth
        · rename_i hC
          refine finish_turn_inv _ ?_ hw hb
          show (apply_physics m.token_physics g').is_animating = false
          exact Bool.eq_false_iff.mpr hC
  | step m hm ih =>
      unfold step_physics
      split
      · rename_i ha
        dsimp only
        have hd : m.is_game_done = false := by
          cases hv : m.is_game_done with
          | false => rfl
          | true =>
              have h2 : m.token_physics.is_animating = false := ih.1 hv
              rw [ha] at h2
              cases h2
        have hw : m.winner = none := by
          cases hv : m.winner with
          | none => rfl
          | some p =>
              have := ih.2.1 (by rw [hv]; rfl)
              rw [hd] at this
              cases this
        have hb : m.both_players_won = false := by
          cases hv : m.both_players_won with
          | false => rfl
          | true =>
              have := (ih.2.2.1 hv).1
              rw [hd] at this
              cases this
        split
        · rename_i hC
          rw [Bool.and_eq_true, Bool.not_eq_true'] at hC
          exact finish_turn_inv _ hC.1 hw hb
        · rename_i hC
          refine ⟨fun hdone => (by rw [hd] at hdone; cases hdone), ?_, ?_, ?_⟩
          · intro hwin
            rw [hw] at hwin
            cases hwin
          · intro hboth
            rw [hb] at hboth
            cases hboth
          · intro hp
            cases hanim : (step_animation m.token_physics m.grid).1.is_animating with
            | true => exact hanim
            | false =>
                exfalso
                exact hC (by rw [Bool.and_eq_true, Bool.not_eq_true', hanim]
                             exact ⟨rfl, hp⟩)
      · exact ih

/-- External driver commands: a placement attempt or one frame tick. -/
inductive Op : Type
  | place (row col : Int) : Op
  | tick : Op

/-- Apply one driver command to the engine. -/
def apply_op (m : Model) : Op → Model
  | .place row col => (choose_cell m row col).2
  | .tick => step_physics m

/-- Run a sequence of driver commands. -/
def run (m : Model) : List Op → Model
  | [] => m
  | op :: rest => run (apply_op m op) rest

/-- Running commands preserves reachability. -/
theorem run_reachable (m : Model) (hm : Reachable m) :
    ∀ ops : List Op, Reachable (run m ops) := by
  intro ops
  induction ops generalizing m with
  | nil => exact hm
  | cons op rest ih =>
      show Reachable (run (apply_op m op) rest)
      refine ih _ ?_
      cases op with
      | place row col => exact Reachable.choose m row col hm
      | tick => exact Reachable.step m hm

/-- C8: `GameOver` is terminal.  In every reachable state with the game done,
physics is not animating, every `choose_cell` call returns `False` leaving
the state untouched, and any further sequence of `choose_cell`/`step_physics`
calls leaves the whole state (grid, player, winner, flags) unchanged. -/
theorem game_over_terminal (m : Model) (hm : Reachable m)
    (hd : m.is_game_done = true) :
    m.is_animating = false ∧
    (∀ row col : Int, choose_cell m row col = (false, m)) ∧
    (∀ ops : List Op, run m ops = m) := by
  have inv := reachable_inv m hm
  have ha := inv.1 hd
  have hch : ∀ row col : Int, choose_cell m row col = (false, m) :=
    fun row col => (choose_cell_cases m row col).1 hd
  have hst : step_physics m = m := by
    unfold step_physics
    have ha' : m.token_physics.is_animating = false := ha
    rw [ha']
    simp
  have hrun : ∀ ops : List Op, run m ops = m := by
    intro ops
    induction ops with
    | nil => rfl
    | cons op rest ih =>
        show run (apply_op m op) rest = m
        have hop : apply_op m op = m := by
          cases op with
          | place row col =>
              show (choose_cell m row col).2 = m
              rw [hch row col]
          | tick => exact hst
        rw [hop]
        exact ih
  exact ⟨ha, hch, hrun⟩

/-- A finished demonstration game: P1 fills row 0 while P2 fills part of
row 5, so P1 wins by row completion on the 13th placement. -/
def demo_ops : List Op :=
  [.place 0 0, .place 5 0, .place 0 1, .place 5 1, .place 0 2, .place 5 2,
   .place 0 3, .place 5 3, .place 0 4, .place 5 4, .place 0 5, .place 5 5,
   .place 0 6]

/-- Closed witness for `game_over_terminal`: the demonstration game is over
and a further placement is rejected without mutating anything. -/
theorem game_over_terminal_witness :
    (run (Model.init .tic_tac_toe .floating) demo_ops).is_game_done = true ∧
    choose_cell (run (Model.init .tic_tac_toe .floating) demo_ops) 2 2 =
      (false, run (Model.init .tic_tac_toe .floating) demo_ops) := by
  have hr : Reachable (run (Model.init .tic_tac_toe .floating) demo_ops) :=
    run_reachable _ (Reachable.init _ _) demo_ops
  have hd : (run (Model.init .tic_tac_toe .floating) demo_ops).is_game_done = true := by
    decide
  exact ⟨hd, (game_over_terminal _ hr hd).2.1 2 2⟩

/-- C9: reachable-state invariants — a recorded winner implies the game is
done; the both-won flag implies the game is done with no single winner; the
pending-turn-end flag is only up while the physics variant is animating. -/
theorem engine_invariants (m : Model) (hm : Reachable m) :
    (m.winner.isSome = true → m.is_game_done = true) ∧
    (m.both_players_won = true → m.is_game_done = true ∧ m.winner = none) ∧
    (m.pending_turn_end = true → m.is_animating = true) := by
  have inv := reachable_inv m hm
  exact ⟨inv.2.1, inv.2.2.1, inv.2.2.2⟩

/-- Closed witness for `engine_invariants`: the freshly constructed model. -/
theorem engine_invariants_witness :
    ((Model.init .not_connect_four .weak_gravity).winner.isSome = true →
      (Model.init .not_connect_four .weak_gravity).is_game_done = true) ∧
    ((Model.init .not_connect_four .weak_gravity).both_players_won = true →
      (Model.init .not_connect_four .weak_gravity).is_game_done = true ∧
      (Model.init .not_connect_four .weak_gravity).winner = none) ∧
    ((Model.init .not_connect_four .weak_gravity).pending_turn_end = true →
      (Model.init .not_connect_four .weak_gravity).is_animating = true) :=
  engine_invariants (Model.init .not_connect_four .weak_gravity)
    (Reachable.init .not_connect_four .weak_gravity)

/-- Python reference semantics for the engine's grid list: a heap of list
objects addressed by object id, with the engine holding the id of its grid in
`grid_ref`.  `ConnectTacToeModel.get_grid` as written — `return self._grid` —
hands out that id (the list itself), not a copy, although its own docstring
promises "a copy of the current game grid". -/
structure PyGridStore : Type where
  heap : Nat → Grid
  grid_ref : Nat

/-- `get_grid` under reference semantics: the returned value is the engine's
own grid object. -/
def PyGridStore.get_grid (s : PyGridStore) : Nat := s.grid_ref

/-- A caller-side mutation through a list reference (`grid[r][c] = v`). -/
def PyGridStore.heap_write (s : PyGridStore) (ref : Nat) (r : Fin 6) (c : Fin 7)
    (v : Cell) : PyGridStore :=
  { s with heap := fun n => if n = ref then setCell (s.heap n) r c v else s.heap n }

/-- `get_owner` reads the engine's grid object. -/
def PyGridStore.get_owner (s : PyGridStore) (r : Fin 6) (c : Fin 7) : Cell :=
  s.heap s.grid_ref r c

/-- C10 (code bug evidence): because `get_grid` returns the internal list
rather than a copy, writing through the structure it returns changes the
engine's own cell: on a fresh store the engine's `(0,0)` starts empty and
reads as P1 after the caller-side write.  The claimed snapshot semantics
(mutations through the returned structure do not alter the engine's grid)
fails. -/
theorem get_grid_alias_mutates_engine :
    (PyGridStore.get_owner ⟨fun _ => (fun _ _ => none), 0⟩ 0 0 = none) ∧
    PyGridStore.get_owner
      (PyGridStore.heap_write ⟨fun _ => (fun _ _ => none), 0⟩
        (PyGridStore.get_grid ⟨fun _ => (fun _ _ => none), 0⟩) 0 0 (some Player.P1))
      0 0 = some Player.P1 := by
  constructor
  · rfl
  · show (if (0 : Nat) = 0 then setCell (fun _ _ => none) 0 0 (some Player.P1)
      else (fun _ _ => none)) 0 0 = some Player.P1
    rw [if_pos rfl, setCell_self]

/-- 4-directional adjacency (up/down/left/right; never diagonal). -/
def Adj (a b : Pos) : Prop :=
  (a.1 = b.1 ∧ (a.2.val + 1 = b.2.val ∨ b.2.val + 1 = a.2.val)) ∨
  (a.2 = b.2 ∧ (a.1.val + 1 = b.1.val ∨ b.1.val + 1 = a.1.val))

instance : DecidablePred (fun ab : Pos × Pos => Adj ab.1 ab.2) := fun _ =>
  inferInstanceAs (Decidable (_ ∨ _))

instance (a b : Pos) : Decidable (Adj a b) :=
  inferInstanceAs (Decidable (_ ∨ _))

/-- Cell ownership. -/
def owns (g : Grid) (p : Player) (x : Pos) : Prop := g x.1 x.2 = some p

instance (g : Grid) (p : Player) (x : Pos) : Decidable (owns g p x) :=
  inferInstanceAs (Decidable (_ = _))

/-- One reachability step: move to an adjacent cell owned by `p`. -/
def stepRel (g : Grid) (p : Player) (x y : Pos) : Prop := Adj x y ∧ owns g p y

/-- Reachability through cells owned by `p`. -/
def reach (g : Grid) (p : Player) (x y : Pos) : Prop :=
  Relation.ReflTransGen (stepRel g p) x y

/-- A set of cells all owned by `p` and connected inside itself under
4-directional adjacency. -/
def ConnectedOwned (g : Grid) (p : Player) (S : Finset Pos) : Prop :=
  (∀ x ∈ S, owns g p x) ∧
  ∀ x ∈ S, ∀ y ∈ S,
    Relation.ReflTransGen (fun a b => a ∈ S ∧ b ∈ S ∧ Adj a b) x y

/-- The claim's winning condition: some connected set of at least four own
cells exists. -/
def SpecWins (g : Grid) (p : Player) : Prop :=
  ∃ S : Finset Pos, 4 ≤ S.card ∧ ConnectedOwned g p S

theorem adj_symm : ∀ a b : Pos, Adj a b → Adj b a := by decide

/-- The four BFS directions produce exactly the 4-adjacent positions. -/
theorem neighbors_adj :
    ∀ pos x : Pos,
      (∃ d ∈ directions,
        toPos ((pos.1 : Int) + d.1) ((pos.2 : Int) + d.2) = some x) ↔ Adj pos x := by
  decide

theorem owns_of_reach (g : Grid) (p : Player) (s y : Pos) (hs : owns g p s)
    (h : reach g p s y) : owns g p y := by
  induction h with
  | refl => exact hs
  | tail _ hstep ih => exact hstep.2

theorem reach_symm (g : Grid) (p : Player) (x y : Pos) (hx : owns g p x)
    (h : reach g p x y) : reach g p y x := by
  induction h with
  | refl => exact Relation.ReflTransGen.refl
  | tail hr hstep ih =>
      rename_i b c
      have hb : owns g p b := owns_of_reach g p x b hx hr
      exact Relation.ReflTransGen.head ⟨adj_symm b c hstep.1, hb⟩ ih

theorem closed_of_reach (g : Grid) (p : Player) (V : Finset Pos)
    (hV : ∀ a ∈ V, ∀ b, stepRel g p a b → b ∈ V) (x y : Pos) (hx : x ∈ V)
    (h : reach g p x y) : y ∈ V := by
  induction h with
  | refl => exact hx
  | tail _ hstep ih => exact hV _ ih _ hstep

/-- The connected component of `s` through cells owned by `p` (a proof-side
device; classical decidability). -/
noncomputable def comp (g : Grid) (p : Player) (s : Pos) : Finset Pos :=
  @Finset.filter _ (fun y => reach g p s y) (Classical.decPred _) Finset.univ

theorem mem_comp (g : Grid) (p : Player) (s y : Pos) :
    y ∈ comp g p s ↔ reach g p s y := by
  unfold comp
  rw [@Finset.mem_filter _ (fun y => reach g p s y) (Classical.decPred _) Finset.univ y]
  exact ⟨fun h => h.2, fun h => ⟨Finset.mem_univ _, h⟩⟩

theorem comp_eq_of_reach (g : Grid) (p : Player) (s t : Pos) (hs : owns g p s)
    (h : reach g p s t) : comp g p s = comp g p t := by
  ext y
  rw [mem_comp, mem_comp]
  have hts : reach g p t s := reach_symm g p s t hs h
  exact ⟨fun hy => Relation.ReflTransGen.trans hts hy,
    fun hy => Relation.ReflTransGen.trans h hy⟩

/-- Characterization of one node's neighbor processing: the queue is extended
by a duplicate-free batch of fresh owned neighbors, which are also added to
the visited set, and afterwards every owned neighbor of `pos` is visited. -/
theorem visit_neighbors_spec (g : Grid) (p : Player) (pos : Pos) :
    ∀ (ds : List (Int × Int)) (q : List Pos) (v : Finset Pos),
      ∃ new : List Pos,
        (ds.foldl (visit_dir g p pos) (q, v)).1 = q ++ new ∧
        (ds.foldl (visit_dir g p pos) (q, v)).2 = v ∪ new.toFinset ∧
        new.Nodup ∧
        (∀ x ∈ new, x ∉ v ∧ owns g p x ∧
          ∃ d ∈ ds, toPos ((pos.1 : Int) + d.1) ((pos.2 : Int) + d.2) = some x) ∧
        (∀ x : Pos,
          (∃ d ∈ ds, toPos ((pos.1 : Int) + d.1) ((pos.2 : Int) + d.2) = some x) →
          owns g p x → x ∈ v ∪ new.toFinset) := by
  intro ds
  induction ds with
  | nil =>
      intro q v
      refine ⟨[], by simp, by simp, List.nodup_nil, by simp, ?_⟩
      rintro x ⟨d, hd, -⟩
      cases hd
  | cons d ds ih =>
      intro q v
      rw [List.foldl_cons]
      rcases htp : toPos ((pos.1 : Int) + d.1) ((pos.2 : Int) + d.2) with _ | np
      · have hvd : visit_dir g p pos (q, v) d = (q, v) := by
          unfold visit_dir
          rw [htp]
        rw [hvd]
        obtain ⟨new, h1, h2, h3, h4, h5⟩ := ih q v
        refine ⟨new, h1, h2, h3, ?_, ?_⟩
        · intro x hx
          obtain ⟨ha, hb, d', hd', he⟩ := h4 x hx
          exact ⟨ha, hb, d', List.mem_cons_of_mem d hd', he⟩
        · rintro x ⟨d', hd', he⟩ hown
          rcases List.mem_cons.mp hd' with rfl | hd'
          · rw [htp] at he
            cases he
          · exact h5 x ⟨d', hd', he⟩ hown
      · by_cases hcond : np ∉ v ∧ g np.1 np.2 = some p
        · have hvd : visit_dir g p pos (q, v) d = (q ++ [np], insert np v) := by
            unfold visit_dir
            rw [htp]
            show (if np ∉ v ∧ g np.1 np.2 = some p then (q ++ [np], insert np v)
              else (q, v)) = (q ++ [np], insert np v)
            rw [if_pos hcond]
          rw [hvd]
          obtain ⟨new, h1, h2, h3, h4, h5⟩ := ih (q ++ [np]) (insert np v)
          refine ⟨np :: new, ?_, ?_, ?_, ?_, ?_⟩
          · rw [h1, List.append_assoc]
            rfl
          · rw [h2]
            ext z
            simp [List.toFinset_cons, Finset.mem_insert, Finset.mem_union]
          · refine List.nodup_cons.mpr ⟨?_, h3⟩
            intro hnp
            exact (h4 np hnp).1 (Finset.mem_insert_self np v)
          · intro x hx
            rcases List.mem_cons.mp hx with rfl | hx
            · exact ⟨hcond.1, hcond.2, d, List.mem_cons_self d ds, htp⟩
            · obtain ⟨ha, hb, d', hd', he⟩ := h4 x hx
              exact ⟨fun hxv => ha (Finset.mem_insert_of_mem hxv), hb, d',
                List.mem_cons_of_mem d hd', he⟩
          · rintro x ⟨d', hd', he⟩ hown
            rcases List.mem_cons.mp hd' with rfl | hd'
            · rw [htp] at he
              cases he
              rw [Finset.mem_union]
              right
              rw [List.mem_toFinset]
              exact List.mem_cons_self np new
            · have := h5 x ⟨d', hd', he⟩ hown
              rw [Finset.mem_union, Finset.mem_insert] at this
              rw [Finset.mem_union, List.mem_toFinset, List.mem_cons]
              rcases this with (rfl | hv) | hnew
              · right
                left
                rfl
              · left
                exact hv
              · right
                right
                rw [← List.mem_toFinset]
                exact hnew
        · have hvd : visit_dir g p pos (q, v) d = (q, v) := by
            unfold visit_dir
            rw [htp]
            show (if np ∉ v ∧ g np.1 np.2 = some p then (q ++ [np], insert np v)
              else (q, v)) = (q, v)
            rw [if_neg hcond]
          rw [hvd]
          obtain ⟨new, h1, h2, h3, h4, h5⟩ := ih q v
          refine ⟨new, h1, h2, h3, ?_, ?_⟩
          · intro x hx
            obtain ⟨ha, hb, d', hd', he⟩ := h4 x hx
            exact ⟨ha, hb, d', List.mem_cons_of_mem d hd', he⟩
          · rintro x ⟨d', hd', he⟩ hown
            rcases List.mem_cons.mp hd' with rfl | hd'
            · rw [htp] at he
              cases he
              rw [Finset.mem_union]
              left
              by_contra hxv
              exact hcond ⟨hxv, hown⟩
            · exact h5 x ⟨d', hd', he⟩ hown

/-- A set containing the seed, contained in its component and closed under
the step relation is the whole component. -/
theorem closed_eq_comp (g : Grid) (p : Player) (s : Pos) (F : Finset Pos)
    (hsF : s ∈ F) (hFC : F ⊆ comp g p s)
    (hclosed : ∀ x ∈ F, ∀ y, stepRel g p x y → y ∈ F) : F = comp g p s := by
  refine Finset.Subset.antisymm hFC ?_
  intro x hx
  exact closed_of_reach g p F hclosed s x hsF ((mem_comp g p s x).mp hx)

/-- Main invariant of the `_bfs_count` while-loop: starting from a queue of
already-visited frontier cells of the seed's component, with enough fuel, the
loop returns the initial visited set enlarged by exactly the seed's component
and counts exactly its size. -/
theorem bfs_loop_spec (g : Grid) (p : Player) (s : Pos) :
    ∀ (fuel : Nat) (Q : List Pos) (V0 F : Finset Pos) (cnt : Nat),
      Q.Nodup →
      (∀ x ∈ Q, x ∈ F) →
      s ∈ F →
      F ⊆ comp g p s →
      Disjoint V0 (comp g p s) →
      (∀ x ∈ F, x ∉ Q → ∀ y, stepRel g p x y → y ∈ F) →
      cnt + Q.length = F.card →
      2 * ((comp g p s).card - F.card) + Q.length ≤ fuel →
      bfs_loop g p fuel Q (V0 ∪ F) cnt = (V0 ∪ comp g p s, (comp g p s).card) := by
  intro fuel
  induction fuel with
  | zero =>
      intro Q V0 F cnt hnd hQF hsF hFC hdisj hcl hcnt hfuel
      have hQnil : Q = [] := List.length_eq_zero.mp (by omega)
      subst hQnil
      have hF : F = comp g p s := closed_eq_comp g p s F hsF hFC
        (fun x hx y hstep => hcl x hx (by simp) y hstep)
      show (V0 ∪ F, cnt) = (V0 ∪ comp g p s, (comp g p s).card)
      rw [hF]
      have : cnt = (comp g p s).card := by
        rw [← hF]
        simpa using hcnt
      rw [this]
  | succ fuel ih =>
      intro Q V0 F cnt hnd hQF hsF hFC hdisj hcl hcnt hfuel
      cases Q with
      | nil =>
          have hF : F = comp g p s := closed_eq_comp g p s F hsF hFC
            (fun x hx y hstep => hcl x hx (by simp) y hstep)
          show (V0 ∪ F, cnt) = (V0 ∪ comp g p s, (comp g p s).card)
          rw [hF]
          have : cnt = (comp g p s).card := by
            rw [← hF]
            simpa using hcnt
          rw [this]
      | cons pos rest =>
          have hposF : pos ∈ F := hQF pos (List.mem_cons_self pos rest)
          have hposC : pos ∈ comp g p s := hFC hposF
          have hreachpos : reach g p s pos := (mem_comp g p s pos).mp hposC
          obtain ⟨new, h1, h2, h3, h4, h5⟩ :=
            visit_neighbors_spec g p pos directions rest (V0 ∪ F)
          have hstepC : ∀ x ∈ new, x ∈ comp g p s := by
            intro x hx
            obtain ⟨-, hown, hd⟩ := h4 x hx
            have hadj : Adj pos x := (neighbors_adj pos x).mp hd
            exact (mem_comp g p s x).mpr
              (Relation.ReflTransGen.tail hreachpos ⟨hadj, hown⟩)
          have hnewF : ∀ x ∈ new, x ∉ F := by
            intro x hx hxF
            exact (h4 x hx).1 (Finset.mem_union_right V0 hxF)
          have hnewV0 : ∀ x ∈ new, x ∉ V0 := by
            intro x hx hxV
            exact (h4 x hx).1 (Finset.mem_union_left F hxV)
          have hrestnd : rest.Nodup := (List.nodup_cons.mp hnd).2
          have hrestF : ∀ x ∈ rest, x ∈ F :=
            fun x hx => hQF x (List.mem_cons_of_mem pos hx)
          have hdisjFnew : Disjoint F new.toFinset := by
            rw [Finset.disjoint_right]
            intro x hx
            rw [List.mem_toFinset] at hx
            exact hnewF x hx
          have hnewlen : new.toFinset.card = new.length :=
            List.toFinset_card_of_nodup h3
          have hcardF' : (F ∪ new.toFinset).card = F.card + new.length := by
            rw [Finset.card_union_of_disjoint hdisjFnew, hnewlen]
          have hF'C : F ∪ new.toFinset ⊆ comp g p s := by
            intro x hx
            rcases Finset.mem_union.mp hx with hx | hx
            · exact hFC hx
            · rw [List.mem_toFinset] at hx
              exact hstepC x hx
          have hstep : bfs_loop g p (fuel + 1) (pos :: rest) (V0 ∪ F) cnt =
              bfs_loop g p fuel (rest ++ new) (V0 ∪ (F ∪ new.toFinset)) (cnt + 1) := by
            show bfs_loop g p fuel
              (visit_neighbors g p pos (rest, V0 ∪ F)).1
              (visit_neighbors g p pos (rest, V0 ∪ F)).2 (cnt + 1) = _
            unfold visit_neighbors
            rw [h1, h2, Finset.union_assoc]
          rw [hstep]
          refine ih (rest ++ new) V0 (F ∪ new.toFinset) (cnt + 1) ?_ ?_ ?_ hF'C hdisj
            ?_ ?_ ?_
          · rw [List.nodup_append]
            refine ⟨hrestnd, h3, ?_⟩
            intro x hx hxnew
            exact hnewF x hxnew (hrestF x hx)
          · intro x hx
            rcases List.mem_append.mp hx with hx | hx
            · exact Finset.mem_union_left _ (hrestF x hx)
            · exact Finset.mem_union_right _ (List.mem_toFinset.mpr hx)
          · exact Finset.mem_union_left _ hsF
          · intro x hxF' hxQ y hstepy
            rcases Finset.mem_union.mp hxF' with hxF | hxnew
            · by_cases hxpos : x = pos
              · subst hxpos
                have hyC : y ∈ comp g p s := (mem_comp g p s y).mpr
                  (Relation.ReflTransGen.tail hreachpos hstepy)
                have hyd : ∃ d ∈ directions,
                    toPos ((x.1 : Int) + d.1) ((x.2 : Int) + d.2) = some y :=
                  (neighbors_adj x y).mpr hstepy.1
                have hy := h5 y hyd hstepy.2
                rcases Finset.mem_union.mp hy with hy | hy
                · rcases Finset.mem_union.mp hy with hy | hy
                  · exact absurd hyC (Finset.disjoint_left.mp hdisj hy)
                  · exact Finset.mem_union_left _ hy
                · exact Finset.mem_union_right _ hy
              · have hxrest : x ∉ pos :: rest := by
                  intro hmem
                  rcases List.mem_cons.mp hmem with h | h
                  · exact hxpos h
                  · exact hxQ (List.mem_append.mpr (Or.inl h))
                exact Finset.mem_union_left _ (hcl x hxF hxrest y hstepy)
            · exfalso
              rw [List.mem_toFinset] at hxnew
              exact hxQ (List.mem_append.mpr (Or.inr hxnew))
          · rw [List.length_append, hcardF']
            simp only [List.length_cons] at hcnt
            omega
          · rw [List.length_append, hcardF']
            have hle : F.card + new.length ≤ (comp g p s).card := by
              rw [← hcardF']
              exact Finset.card_le_card hF'C
            have hle2 : F.card ≤ (comp g p s).card := Finset.card_le_card hFC
            simp only [List.length_cons] at hfuel
            omega

/-- `_bfs_count` from an owned unvisited seed: the visited set grows by the
seed's component and the count is the component's size. -/
theorem bfs_count_spec (g : Grid) (p : Player) (s : Pos) (hs : owns g p s)
    (V0 : Finset Pos) (hdisj : Disjoint V0 (comp g p s)) :
    bfs_count g p s V0 = (V0 ∪ comp g p s, (comp g p s).card) := by
  unfold bfs_count
  have hsC : s ∈ comp g p s := (mem_comp g p s s).mpr Relation.ReflTransGen.refl
  have hins : insert s V0 = V0 ∪ {s} := by
    rw [Finset.insert_eq, Finset.union_comm]
  rw [hins]
  refine bfs_loop_spec g p s 100 [s] V0 {s} 0 (List.nodup_singleton s) ?_
    (Finset.mem_singleton_self s) ?_ hdisj ?_ ?_ ?_
  · intro x hx
    rw [List.mem_singleton] at hx
    rw [hx]
    exact Finset.mem_singleton_self s
  · intro x hx
    rw [Finset.mem_singleton] at hx
    rw [hx]
    exact hsC
  · intro x hx hxQ
    rw [Finset.mem_singleton] at hx
    exact absurd (by rw [hx]; exact List.mem_singleton_self s) hxQ
  · simp
  · have hle : (comp g p s).card ≤ 42 :=
      le_trans (Finset.card_le_card (Finset.subset_univ _)) (le_of_eq (by rfl))
    simp only [Finset.card_singleton, List.length_singleton]
    have h83 : 2 * ((comp g p s).card - 1) + 1 ≤ 2 * (42 - 1) + 1 :=
      Nat.add_le_add_right (Nat.mul_le_mul_left 2 (Nat.sub_le_sub_right hle 1)) 1
    exact le_trans h83 (by norm_num)

/-- Once a winning group is found the scan state is frozen. -/
theorem ncf_scan_frozen (g : Grid) (p : Player) (V : Finset Pos) :
    ∀ L : List Pos, L.foldl (ncf_seed_step g p) (true, V) = (true, V) := by
  refine foldl_id_of_fix _ _ ?_
  intro pos
  unfold ncf_seed_step
  rw [if_pos rfl]

/-- The BFS never forgets visited cells. -/
theorem bfs_loop_visited_mono (g : Grid) (p : Player) :
    ∀ (fuel : Nat) (Q : List Pos) (V : Finset Pos) (cnt : Nat),
      V ⊆ (bfs_loop g p fuel Q V cnt).1 := by
  intro fuel
  induction fuel with
  | zero =>
      intro Q V cnt
      cases Q with
      | nil => exact Finset.Subset.refl V
      | cons pos rest => exact Finset.Subset.refl V
  | succ fuel ih =>
      intro Q V cnt
      cases Q with
      | nil => exact Finset.Subset.refl V
      | cons pos rest =>
          obtain ⟨new, h1, h2, -, -, -⟩ :=
            visit_neighbors_spec g p pos directions rest V
          show V ⊆ (bfs_loop g p fuel
            (visit_neighbors g p pos (rest, V)).1
            (visit_neighbors g p pos (rest, V)).2 (cnt + 1)).1
          refine Finset.Subset.trans ?_ (ih _ _ _)
          show V ⊆ (visit_neighbors g p pos (rest, V)).2
          unfold visit_neighbors
          rw [h2]
          exact Finset.subset_union_left

/-- The visited set only grows along the scan. -/
theorem ncf_scan_mono (g : Grid) (p : Player) :
    ∀ (L : List Pos) (won : Bool) (V : Finset Pos),
      V ⊆ (L.foldl (ncf_seed_step g p) (won, V)).2 := by
  intro L
  induction L with
  | nil => intro won V; exact Finset.Subset.refl V
  | cons pos L ih =>
      intro won V
      rw [List.foldl_cons]
      unfold ncf_seed_step
      by_cases hw : won = true
      · rw [if_pos hw]
        exact ih won V
      · rw [if_neg hw]
        split
        · dsimp only
          refine Finset.Subset.trans ?_ (ih _ _)
          show V ⊆ (bfs_count g p pos V).1
          unfold bfs_count
          refine Finset.Subset.trans ?_ (bfs_loop_visited_mono g p 100 [pos] _ 0)
          exact Finset.subset_insert pos V
        · exact ih won V

/-- Invariant of the seed scan of `_check_player_wins`: the visited set is a
union of complete components of owned cells, the win flag is true exactly
when a component of size ≥ 4 has been seen, and every processed owned cell is
visited. -/
theorem ncf_scan_spec (g : Grid) (p : Player) :
    ∀ (L : List Pos) (won : Bool) (V : Finset Pos),
      (∀ x ∈ V, owns g p x) →
      (∀ x ∈ V, ∀ y, stepRel g p x y → y ∈ V) →
      (won = true → ∃ x, owns g p x ∧ 4 ≤ (comp g p x).card) →
      (won = false → ∀ x ∈ V, (comp g p x).card < 4) →
      ((L.foldl (ncf_seed_step g p) (won, V)).1 = true →
        ∃ x, owns g p x ∧ 4 ≤ (comp g p x).card) ∧
      ((L.foldl (ncf_seed_step g p) (won, V)).1 = false →
        (∀ x ∈ (L.foldl (ncf_seed_step g p) (won, V)).2, (comp g p x).card < 4) ∧
        (∀ x ∈ L, owns g p x → x ∈ (L.foldl (ncf_seed_step g p) (won, V)).2)) := by
  intro L
  induction L with
  | nil =>
      intro won V hVo hVc hwt hwf
      refine ⟨hwt, ?_⟩
      intro hf
      exact ⟨hwf hf, by simp⟩
  | cons pos L ih =>
      intro won V hVo hVc hwt hwf
      rw [List.foldl_cons]
      by_cases hw : won = true
      · subst hw
        have hfix : ncf_seed_step g p (true, V) pos = (true, V) := by
          unfold ncf_seed_step
          rw [if_pos rfl]
        rw [hfix, ncf_scan_frozen g p V L]
        refine ⟨fun _ => hwt rfl, ?_⟩
        intro hf
        cases hf
      · have hwf' : won = false := Bool.eq_false_iff.mpr hw
        subst hwf'
        by_cases hseed : g pos.1 pos.2 = some p ∧ pos ∉ V
        · have hstep : ncf_seed_step g p (false, V) pos =
              (decide (4 ≤ (comp g p pos).card), V ∪ comp g p pos) := by
            unfold ncf_seed_step
            rw [if_neg (by simp), if_pos hseed]
            have hdisj : Disjoint V (comp g p pos) := by
              rw [Finset.disjoint_left]
              intro x hxV hxC
              have hreach : reach g p pos x := (mem_comp g p pos x).mp hxC
              have hback : reach g p x pos := reach_symm g p pos x hseed.1 hreach
              exact hseed.2 (closed_of_reach g p V hVc x pos hxV hback)
            rw [bfs_count_spec g p pos hseed.1 V hdisj]
          rw [hstep]
          have hCowned : ∀ x ∈ comp g p pos, owns g p x := fun x hx =>
            owns_of_reach g p pos x hseed.1 ((mem_comp g p pos x).mp hx)
          have hVo' : ∀ x ∈ V ∪ comp g p pos, owns g p x := by
            intro x hx
            rcases Finset.mem_union.mp hx with hx | hx
            · exact hVo x hx
            · exact hCowned x hx
          have hVc' : ∀ x ∈ V ∪ comp g p pos, ∀ y, stepRel g p x y →
              y ∈ V ∪ comp g p pos := by
            intro x hx y hstepy
            rcases Finset.mem_union.mp hx with hx | hx
            · exact Finset.mem_union_left _ (hVc x hx y hstepy)
            · refine Finset.mem_union_right _ ?_
              rw [mem_comp]
              exact Relation.ReflTransGen.tail ((mem_comp g p pos x).mp hx) hstepy
          have hwt' : decide (4 ≤ (comp g p pos).card) = true →
              ∃ x, owns g p x ∧ 4 ≤ (comp g p x).card := by
            intro hd
            exact ⟨pos, hseed.1, of_decide_eq_true hd⟩
          have hwf2 : decide (4 ≤ (comp g p pos).card) = false →
              ∀ x ∈ V ∪ comp g p pos, (comp g p x).card < 4 := by
            intro hd x hx
            have hlt : (comp g p pos).card < 4 := by
              have := of_decide_eq_false hd
              omega
            rcases Finset.mem_union.mp hx with hx | hx
            · exact hwf rfl x hx
            · rw [← comp_eq_of_reach g p pos x hseed.1 ((mem_comp g p pos x).mp hx)]
              exact hlt
          obtain ⟨c1, c2⟩ := ih (decide (4 ≤ (comp g p pos).card)) (V ∪ comp g p pos)
            hVo' hVc' hwt' hwf2
          refine ⟨c1, ?_⟩
          intro hf
          obtain ⟨d1, d2⟩ := c2 hf
          refine ⟨d1, ?_⟩
          intro x hx hox
          rcases List.mem_cons.mp hx with rfl | hx
          · refine ncf_scan_mono g p L _ _ (Finset.mem_union_right _ ?_)
            rw [mem_comp]
            exact Relation.ReflTransGen.refl
          · exact d2 x hx hox
        · have hstep : ncf_seed_step g p (false, V) pos = (false, V) := by
            unfold ncf_seed_step
            rw [if_neg (by simp), if_neg hseed]
          rw [hstep]
          obtain ⟨c1, c2⟩ := ih false V hVo hVc hwt hwf
          refine ⟨c1, ?_⟩
          intro hf
          obtain ⟨d1, d2⟩ := c2 hf
          refine ⟨d1, ?_⟩
          intro x hx hox
          rcases List.mem_cons.mp hx with rfl | hx
          · have hxV : x ∈ V := by
              by_contra hxV
              exact hseed ⟨hox, hxV⟩
            exact ncf_scan_mono g p L false V hxV
          · exact d2 x hx hox

theorem all_positions_complete : ∀ x : Pos, x ∈ all_positions := by decide

/-- A reflexive-transitive closure of a symmetric relation is symmetric. -/
theorem rtg_symm {r : Pos → Pos → Prop} (hr : ∀ u v, r u v → r v u) (a b : Pos)
    (h : Relation.ReflTransGen r a b) : Relation.ReflTransGen r b a := by
  induction h with
  | refl => exact Relation.ReflTransGen.refl
  | tail hab hstep ih =>
      rename_i y z
      exact Relation.ReflTransGen.head (hr y z hstep) ih

/-- The component of an owned cell is a connected owned set. -/
theorem comp_connected_owned (g : Grid) (p : Player) (x : Pos)
    (hx : owns g p x) : ConnectedOwned g p (comp g p x) := by
  have howned : ∀ a ∈ comp g p x, owns g p a := fun a ha =>
    owns_of_reach g p x a hx ((mem_comp g p x a).mp ha)
  refine ⟨howned, ?_⟩
  have hfrom : ∀ b, reach g p x b →
      Relation.ReflTransGen
        (fun u v => u ∈ comp g p x ∧ v ∈ comp g p x ∧ Adj u v) x b := by
    intro b hb
    induction hb with
    | refl => exact Relation.ReflTransGen.refl
    | tail hr hstep ih =>
        rename_i y z
        refine Relation.ReflTransGen.tail ih ?_
        refine ⟨(mem_comp g p x y).mpr hr, ?_, hstep.1⟩
        exact (mem_comp g p x z).mpr (Relation.ReflTransGen.tail hr hstep)
  intro a ha b hb
  have hsym : ∀ u v, (u ∈ comp g p x ∧ v ∈ comp g p x ∧ Adj u v) →
      (v ∈ comp g p x ∧ u ∈ comp g p x ∧ Adj v u) := by
    rintro u v ⟨h1, h2, h3⟩
    exact ⟨h2, h1, adj_symm u v h3⟩
  exact Relation.ReflTransGen.trans
    (rtg_symm hsym x a (hfrom a ((mem_comp g p x a).mp ha)))
    (hfrom b ((mem_comp g p x b).mp hb))

/-- C3: `NotConnectFourWinCondition` reports a player winning iff some set of
at least four of that player's cells is connected under 4-directional
adjacency — diagonals never count, and the characterization depends only on
cell ownership, not on the BFS traversal or seed-scan order. -/
theorem ncf_win_iff_connected_group (g : Grid) (p : Player) :
    NotConnectFourWinCondition.check_player_wins g p = true ↔ SpecWins g p := by
  unfold NotConnectFourWinCondition.check_player_wins
  obtain ⟨c1, c2⟩ := ncf_scan_spec g p all_positions false ∅
    (by simp) (by simp) (fun h => by cases h) (fun _ => by simp)
  constructor
  · intro h
    obtain ⟨x, hox, hcard⟩ := c1 h
    exact ⟨comp g p x, hcard, comp_connected_owned g p x hox⟩
  · intro hspec
    by_contra hfalse
    have hf : (all_positions.foldl (ncf_seed_step g p) (false, ∅)).1 = false :=
      Bool.eq_false_iff.mpr hfalse
    obtain ⟨d1, d2⟩ := c2 hf
    obtain ⟨S, hcard, hSo, hSc⟩ := hspec
    obtain ⟨s, hsS⟩ := Finset.card_pos.mp (lt_of_lt_of_le (by norm_num) hcard)
    have hSsub : S ⊆ comp g p s := by
      intro y hy
      rw [mem_comp]
      exact Relation.ReflTransGen.mono
        (fun u v huv => ⟨huv.2.2, hSo v huv.2.1⟩) (hSc s hsS y hy)
    have h4 : 4 ≤ (comp g p s).card := le_trans hcard (Finset.card_le_card hSsub)
    have hsV := d2 s (all_positions_complete s) (hSo s hsS)
    have hlt := d1 s hsV
    omega
